import Mathlib

/-
Verification of the normalization core of the Nobel Prize API data-engineering
pipeline (`nobel-prize-api-data-engineering.py`): the nested-path value
extractor `extract_nested_value` and the JSON-to-table flattener
`normalize_to_dataframe`, embedded shallowly over a Python/JSON value type.
Exceptions raised by the Python code are modelled with `Except PyError`.
-/

namespace NobelNorm

/-- The Python exception kinds the embedded code can raise:
`TypeError` (e.g. `key in None`, indexing a `str`/`list` with a string key),
`AttributeError` (e.g. `None.get`, `None.__contains__`), and `KeyError`
(dict indexing with an absent key; unreachable here because indexing is
guarded by a membership test). -/
inductive PyError where
  | typeError
  | attributeError
  | keyError
deriving DecidableEq

/-- A Python value as it occurs in a decoded JSON payload, plus `np.nan`
(`vNaN`), which the source uses as its missing-value sentinel, and `None`
(`vNull`), which `dict.get` returns for absent keys. An object's fields keep
insertion order, as Python dicts do. -/
inductive JValue where
  | vNull
  | vNaN
  | vStr (s : String)
  | vInt (n : Int)
  | vBool (b : Bool)
  | vObj (fields : List (String × JValue))
  | vArr (elems : List JValue)

open JValue

/-- `needle.isPrefixOf hay || ...` over the tails of `hay`: the substring test
behind Python's `key in some_string`. -/
def charsInfix (needle : List Char) : List Char → Bool
  | [] => needle.isEmpty
  | c :: cs => needle.isPrefixOf (c :: cs) || charsInfix needle cs

/-- Python's `pat in s` on strings (substring containment). -/
def strContains (s pat : String) : Bool := charsInfix pat.toList s.toList

/-- Python's `==` between a string and an arbitrary value, as used by list
membership: true exactly for an equal string. -/
def eqStr (key : String) : JValue → Bool
  | .vStr t => key == t
  | _ => false

/-- Python's `path.split('.')`: cut at every `'.'`, keeping empty pieces
(so `"a..b"` gives `["a", "", "b"]` and `""` gives `[""]`). `acc` holds the
current piece reversed. -/
def splitDotAux : List Char → List Char → List String
  | [], acc => [String.mk acc.reverse]
  | c :: cs, acc =>
    if c = '.' then String.mk acc.reverse :: splitDotAux cs []
    else splitDotAux cs (c :: acc)

/-- Python's `path.split('.')` on a string. -/
def splitDot (s : String) : List String := splitDotAux s.toList []

/-- Python's `key in current` (the `in` operator): key membership on a dict,
substring test on a string, `==`-membership on a list, and `TypeError` on
`None`, numbers, booleans and `nan`. -/
def pyIn (current : JValue) (key : String) : Except PyError Bool :=
  match current with
  | .vObj fields => .ok (fields.lookup key).isSome
  | .vStr s => .ok (strContains s key)
  | .vArr xs => .ok (xs.any (eqStr key))
  | _ => .error .typeError

/-- Python's `current[key]` with a string key: dict lookup (`KeyError` when
absent), `TypeError` on anything else (string and list indices must be
integers). -/
def pyIndex (current : JValue) (key : String) : Except PyError JValue :=
  match current with
  | .vObj fields =>
    match fields.lookup key with
    | some v => .ok v
    | none => .error .keyError
  | _ => .error .typeError

/-- Python's `v.get(key)`: only dicts have `.get` (`AttributeError`
otherwise); an absent key yields `None`. -/
def dictGet (v : JValue) (key : String) : Except PyError JValue :=
  match v with
  | .vObj fields => .ok ((fields.lookup key).getD .vNull)
  | _ => .error .attributeError

/-- Python's `v.__contains__(key)`: same tests as the `in` operator, but a
value without the method (e.g. `None`) raises `AttributeError`. -/
def pyContains (v : JValue) (key : String) : Except PyError Bool :=
  match v with
  | .vObj fields => .ok (fields.lookup key).isSome
  | .vStr s => .ok (strContains s key)
  | .vArr xs => .ok (xs.any (eqStr key))
  | _ => .error .attributeError

/-- Python's `for x in v`: a list yields its elements, a string its
one-character substrings, a dict its keys; other values raise `TypeError`. -/
def pyIterate : JValue → Except PyError (List JValue)
  | .vArr xs => .ok xs
  | .vStr s => .ok (s.toList.map (fun c => vStr (String.mk [c])))
  | .vObj fields => .ok (fields.map (fun q => vStr q.1))
  | _ => .error .typeError

/-- The loop of `extract_nested_value`: for each segment, `if key in current:
current = current[key] else: return default`, then return `current`. -/
def extractAux (dflt : JValue) : JValue → List String → Except PyError JValue
  | current, [] => .ok current
  | current, key :: rest => do
    let hit ← pyIn current key
    if hit then do
      let nxt ← pyIndex current key
      extractAux dflt nxt rest
    else
      .ok dflt

/-- `extract_nested_value(data, path, default=np.nan)` from the source: split
the path on `'.'` and walk the structure, returning `default` as soon as a
membership test fails. -/
def extract_nested_value (data : JValue) (path : String) (dflt : JValue := .vNaN) :
    Except PyError JValue :=
  extractAux dflt data (splitDot path)

/-- One output row: a Python dict from column names to values, in insertion
order. -/
abbrev Row := List (String × JValue)

/-- Reading a cell of a tabular row: an absent column reads as `nan`, exactly
as `pd.DataFrame` fills cells missing from a row's dict. -/
def getCell (row : Row) (c : String) : JValue := (row.lookup c).getD .vNaN

/-- Python `dict` assignment `r[k] = v`: overwrite in place when the key
exists, append otherwise. -/
def rowSetKey (r : List (String × β)) (k : String) (v : β) : List (String × β) :=
  if (r.lookup k).isSome then r.map (fun p => if p.1 == k then (k, v) else p)
  else r ++ [(k, v)]

/-- Python `r.update(u)`: assign `u`'s entries into `r` in order. -/
def rowUpdate (r : List (String × β)) : List (String × β) → List (String × β)
  | [] => r
  | (k, v) :: rest => rowUpdate (rowSetKey r k v) rest

/-- Run `f` over a list left to right, collecting results in order and
stopping at the first raised exception — the effect of the source's `for`
loops that append one result per element. -/
def mapME (f : α → Except PyError β) : List α → Except PyError (List β)
  | [] => .ok []
  | x :: xs => do
    let y ← f x
    let ys ← mapME f xs
    pure (y :: ys)

/-- Append a column name to the accumulated column list unless already
present — one step of `pd.DataFrame`'s first-appearance union of row keys. -/
def insertCol (acc : List String) (k : String) : List String :=
  if acc.contains k then acc else acc ++ [k]

/-- The columns `pd.DataFrame(rows)` derives from a list of dicts: the union
of the rows' keys, in order of first appearance. -/
def dfColumns (rows : List Row) : List String :=
  rows.foldl (fun acc r => r.foldl (fun acc2 p => insertCol acc2 p.1) acc) []

/-- `pd.DataFrame(rows)` from a list of dicts: every row is rectangularized
to the full column list, absent cells becoming `nan`. -/
def toDataFrame (rows : List Row) : List Row :=
  let cols := dfColumns rows
  rows.map (fun r => cols.map (fun c => (c, (r.lookup c).getD .vNaN)))

/-- The conditional expression `v.get(key) if key in v else np.nan` the
normalizer uses for direct keys: the membership test runs first and can
raise; an absent key yields `nan` (not `None`). -/
def condGet (v : JValue) (key : String) : Except PyError JValue := do
  let hk ← pyIn v key
  if hk then dictGet v key else pure JValue.vNaN

/-- The laureate-branch row of `normalize_to_dataframe`, with the dict
literal's fields evaluated in source order. -/
def laureateRow (laureate : JValue) : Except PyError Row := do
  let vid ← dictGet laureate "id"
  let kn ← extract_nested_value laureate "knownName.en"
  let g ← condGet laureate "gender"
  let bd ← extract_nested_value laureate "birth.date"
  let bc ← extract_nested_value laureate "birth.place.city.en"
  let bco ← extract_nested_value laureate "birth.place.country.en"
  let bcn ← extract_nested_value laureate "birth.place.countryNow.en"
  let cont ← extract_nested_value laureate "birth.place.continent.en"
  let dd ← extract_nested_value laureate "death.date"
  pure [("laureate_id", vid), ("known_name", kn), ("gender", g),
        ("birth_date", bd), ("born_city", bc), ("born_country", bco),
        ("born_country_now", bcn), ("continent", cont), ("death_date", dd)]

/-- The prize-branch base row (`row = {...}`) of `normalize_to_dataframe`,
fields in source order; each direct key `k` is read as
`nobel_prize.get(k) if k in nobel_prize else np.nan`. -/
def prizeBaseRow (nobel_prize : JValue) : Except PyError Row := do
  let y ← condGet nobel_prize "awardYear"
  let cat ← extract_nested_value nobel_prize "category.en"
  let da ← condGet nobel_prize "dateAwarded"
  let pa ← condGet nobel_prize "prizeAmount"
  let pj ← condGet nobel_prize "prizeAmountAdjusted"
  let tm ← extract_nested_value nobel_prize "topMotivation.en"
  pure [("year", y), ("category", cat), ("date_awarded", da),
        ("prize_amount", pa), ("prize_amount_adjusted", pj), ("top_motivation", tm)]

/-- The per-embedded-laureate update dict of the prize branch
(`{'laureate_id': ..., 'motivation': ..., 'portion': ...}`). -/
def prizeLaureateCols (nobel_prize_laureate : JValue) : Except PyError Row := do
  let lid ← dictGet nobel_prize_laureate "id"
  let mot ← extract_nested_value nobel_prize_laureate "motivation.en"
  let por ← extract_nested_value nobel_prize_laureate "portion"
  pure [("laureate_id", lid), ("motivation", mot), ("portion", por)]

/-- The rows one prize record contributes: the base row, then either one
`row.copy()`-and-`update` per embedded laureate (when
`nobel_prize.__contains__('laureates')`), or the base row alone. -/
def prizeRows (nobel_prize : JValue) : Except PyError (List Row) := do
  let base ← prizeBaseRow nobel_prize
  let hasL ← pyContains nobel_prize "laureates"
  if hasL then do
    let lv ← dictGet nobel_prize "laureates"
    let ls ← pyIterate lv
    mapME (fun l => do
      let cols ← prizeLaureateCols l
      pure (rowUpdate base cols)) ls
  else
    pure [base]

/-- The laureate branch: `json_data = json_data.get('laureates')`, then one
row per iterated record. -/
def laureatesRows (coll : JValue) : Except PyError (List Row) := do
  let items ← pyIterate coll
  mapME laureateRow items

/-- The prize branch: `json_data = json_data.get('nobelPrizes')`, then the
per-prize rows in iteration order. -/
def prizesRows (coll : JValue) : Except PyError (List Row) := do
  let items ← pyIterate coll
  let rowss ← mapME prizeRows items
  pure rowss.flatten

/-- `normalize_to_dataframe(json_data)` from the source: dispatch on
`json_data.__contains__('laureates')`, then on
`json_data.__contains__('nobelPrizes')`, build the row dicts, and return
`pd.DataFrame(rows)`. -/
def normalize_to_dataframe (json_data : JValue) : Except PyError (List Row) := do
  let hasLaur ← pyContains json_data "laureates"
  if hasLaur then do
    let coll ← dictGet json_data "laureates"
    let rows ← laureatesRows coll
    pure (toDataFrame rows)
  else do
    let hasPr ← pyContains json_data "nobelPrizes"
    if hasPr then do
      let coll ← dictGet json_data "nobelPrizes"
      let rows ← prizesRows coll
      pure (toDataFrame rows)
    else
      pure (toDataFrame [])

/-! ### Analysis predicates

Predicates over the embedded values used to state the claims: where a
dot-path fully resolves, where the extractor's loop legitimately falls back
to the default, and where it cannot raise at all. -/

/-- Full resolution of a segment list: descend through mappings with every
key present, yielding the terminal value; `none` otherwise. -/
def pathValue : JValue → List String → Option JValue
  | v, [] => some v
  | .vObj fields, k :: rest =>
    (match fields.lookup k with
     | some v => pathValue v rest
     | none => none)
  | _, _ :: _ => none

/-- The traversal reaches a step whose membership test is false — a mapping
lacking the key, a string not containing it as a substring, or a list not
containing it — after descending through mappings; there the loop returns the
default. Anything else either fully resolves (`[]` case) or raises. -/
def stopsWithDefault : JValue → List String → Bool
  | _, [] => false
  | .vObj fields, k :: rest =>
    (match fields.lookup k with
     | some v => stopsWithDefault v rest
     | none => true)
  | .vStr s, k :: _ => !(strContains s k)
  | .vArr xs, k :: _ => !(xs.any (eqStr k))
  | _, _ :: _ => false

/-- The traversal cannot raise: it either runs out of segments or stops at a
false membership test before ever testing membership on a non-container. -/
def extractSafe : JValue → List String → Bool
  | _, [] => true
  | .vObj fields, k :: rest =>
    (match fields.lookup k with
     | some v => extractSafe v rest
     | none => true)
  | .vStr s, k :: _ => !(strContains s k)
  | .vArr xs, k :: _ => !(xs.any (eqStr k))
  | _, _ :: _ => false

/-- `pd.isna`: the two values the pipeline treats as "not present" — `None`
(what `dict.get` yields for an absent key) and `np.nan` (the extractor's
default and the dataframe's fill value). -/
def isNA : JValue → Bool
  | .vNull => true
  | .vNaN => true
  | _ => false

/-- The laureate-schema column names, in row-construction order. -/
def laureateColumns : List String :=
  ["laureate_id", "known_name", "gender", "birth_date", "born_city",
   "born_country", "born_country_now", "continent", "death_date"]

/-- The prize-schema base column names, in row-construction order. -/
def prizeBaseColumns : List String :=
  ["year", "category", "date_awarded", "prize_amount", "prize_amount_adjusted",
   "top_motivation"]

/-- The laureate-specific column names a prize row gains from an embedded
laureate entry. -/
def laureateSpecificColumns : List String := ["laureate_id", "motivation", "portion"]

/-- The full prize-schema column set: base columns plus laureate-specific
columns. -/
def prizeFullColumns : List String := prizeBaseColumns ++ laureateSpecificColumns

/-- A prize record embeds the laureate entries `ls`: its dict has the
`laureates` key and iterating the key's value yields `ls`. -/
def embedsLaureates (p : JValue) (ls : List JValue) : Prop :=
  pyContains p "laureates" = .ok true ∧
  ∃ lv, dictGet p "laureates" = .ok lv ∧ pyIterate lv = .ok ls

/-- A laureate record on which the laureate branch cannot raise: a dict whose
seven extracted paths never test membership on a non-container. -/
def laureateRecordWF (r : JValue) : Bool :=
  (match r with | .vObj _ => true | _ => false) &&
  extractSafe r (splitDot "knownName.en") &&
  extractSafe r (splitDot "birth.date") &&
  extractSafe r (splitDot "birth.place.city.en") &&
  extractSafe r (splitDot "birth.place.country.en") &&
  extractSafe r (splitDot "birth.place.countryNow.en") &&
  extractSafe r (splitDot "birth.place.continent.en") &&
  extractSafe r (splitDot "death.date")

/-- An embedded laureate entry on which the per-laureate update cannot
raise. -/
def laureateEntryWF (l : JValue) : Bool :=
  (match l with | .vObj _ => true | _ => false) &&
  extractSafe l (splitDot "motivation.en") &&
  extractSafe l (splitDot "portion")

/-- A prize record on which the prize branch cannot raise: a dict with safe
extracted paths whose `laureates` value, when present, is a list of
well-formed entries. -/
def prizeRecordWF (p : JValue) : Bool :=
  match p with
  | .vObj fields =>
    extractSafe p (splitDot "category.en") &&
    extractSafe p (splitDot "topMotivation.en") &&
    (match fields.lookup "laureates" with
     | none => true
     | some (.vArr ls) => ls.all laureateEntryWF
     | some _ => false)
  | _ => false

/-- A top-level payload on which `normalize_to_dataframe` cannot raise: the
recognized collection, if any, is a list of well-formed records. -/
def payloadWF (fields : List (String × JValue)) : Bool :=
  match fields.lookup "laureates" with
  | some (.vArr ls) => ls.all laureateRecordWF
  | some _ => false
  | none =>
    (match fields.lookup "nobelPrizes" with
     | some (.vArr ps) => ps.all prizeRecordWF
     | some _ => false
     | none => true)

/-! ### Memory-level model

The same two source functions, embedded one level lower: Python objects live
in a heap of numbered cells and the code is state-passing over that heap, so
that mutation — or its absence — is visible. Dict values, list elements and
function arguments are cell addresses; the global singletons `None` and
`np.nan` are the addresses `noneA` and `nanA`. This model exists to settle
the frame/purity claim: the pure model above cannot express "the input is
never mutated". -/

/-- A heap object: an immutable scalar, a dict from keys to value addresses,
or a list of element addresses. -/
inductive PyObj where
  | prim (v : JValue)
  | dictO (fields : List (String × Nat))
  | listO (elems : List Nat)

/-- The Python heap: allocated cells plus the next fresh address. -/
structure Heap where
  cells : List (Nat × PyObj)
  nxt : Nat

/-- A Python computation: state-passing over the heap, raising `PyError`. -/
abbrev PyM := StateT Heap (Except PyError)

/-- Dereference an address (a `TypeError` on a dangling address, which a
well-formed heap never produces). -/
def readCell (a : Nat) : PyM PyObj := fun h =>
  match h.cells.lookup a with
  | some o => .ok (o, h)
  | none => .error .typeError

/-- Allocate a fresh cell holding `o` and return its address. -/
def alloc (o : PyObj) : PyM Nat := fun h =>
  .ok (h.nxt, ⟨h.cells ++ [(h.nxt, o)], h.nxt + 1⟩)

/-- Overwrite the object stored at an existing address. -/
def writeCell (a : Nat) (o : PyObj) : PyM Unit := fun h =>
  .ok ((), ⟨h.cells.map (fun p => if p.1 == a then (a, o) else p), h.nxt⟩)

/-- Python list membership `key in list` at the heap level: compare the
string against each element object. -/
def elemsContainH (key : String) : List Nat → PyM Bool
  | [] => pure false
  | e :: es => do
    let o ← readCell e
    match o with
    | .prim (.vStr t) => if key == t then pure true else elemsContainH key es
    | _ => elemsContainH key es

/-- Python's `key in current` at the heap level. -/
def pyInH (a : Nat) (key : String) : PyM Bool := do
  let o ← readCell a
  match o with
  | .dictO fields => pure (fields.lookup key).isSome
  | .prim (.vStr s) => pure (strContains s key)
  | .listO elems => elemsContainH key elems
  | _ => throw .typeError

/-- Python's `current[key]` at the heap level. -/
def pyIndexH (a : Nat) (key : String) : PyM Nat := do
  let o ← readCell a
  match o with
  | .dictO fields =>
    (match fields.lookup key with
     | some v => pure v
     | none => throw .keyError)
  | _ => throw .typeError

/-- Python's `v.get(key)` at the heap level; an absent key yields the `None`
singleton's address. -/
def dictGetH (a : Nat) (key : String) (noneA : Nat) : PyM Nat := do
  let o ← readCell a
  match o with
  | .dictO fields => pure ((fields.lookup key).getD noneA)
  | _ => throw .attributeError

/-- Python's `v.__contains__(key)` at the heap level. -/
def pyContainsH (a : Nat) (key : String) : PyM Bool := do
  let o ← readCell a
  match o with
  | .dictO fields => pure (fields.lookup key).isSome
  | .prim (.vStr s) => pure (strContains s key)
  | .listO elems => elemsContainH key elems
  | _ => throw .attributeError

/-- A heap-level `for` loop collecting one result per element. -/
def mapMH (f : α → PyM β) : List α → PyM (List β)
  | [] => pure []
  | x :: xs => do
    let y ← f x
    let ys ← mapMH f xs
    pure (y :: ys)

/-- Python's `for x in v` at the heap level: a list yields its element
addresses; iterating a string or a dict allocates the yielded substrings
resp. key strings. -/
def pyIterateH (a : Nat) : PyM (List Nat) := do
  let o ← readCell a
  match o with
  | .listO elems => pure elems
  | .prim (.vStr s) => mapMH (fun c => alloc (.prim (.vStr (String.mk [c])))) s.toList
  | .dictO fields => mapMH (fun q => alloc (.prim (.vStr q.1))) fields
  | _ => throw .typeError

/-- The loop of `extract_nested_value`, heap level. -/
def extractAuxH (dflt : Nat) : Nat → List String → PyM Nat
  | current, [] => pure current
  | current, key :: rest => do
    let hit ← pyInH current key
    if hit then do
      let nxt ← pyIndexH current key
      extractAuxH dflt nxt rest
    else
      pure dflt

/-- `extract_nested_value(data, path, default)`, heap level: a pure walk of
the heap that performs no write or allocation. -/
def extract_nested_valueH (data : Nat) (path : String) (dflt : Nat) : PyM Nat :=
  extractAuxH dflt data (splitDot path)

/-- The conditional `v.get(key) if key in v else np.nan`, heap level. -/
def condGetH (a : Nat) (key : String) (nanA noneA : Nat) : PyM Nat := do
  let hk ← pyInH a key
  if hk then dictGetH a key noneA else pure nanA

/-- The laureate-branch row construction, heap level: read the fields, then
allocate the row dict. -/
def laureateRowH (laureate nanA noneA : Nat) : PyM Nat := do
  let vid ← dictGetH laureate "id" noneA
  let kn ← extract_nested_valueH laureate "knownName.en" nanA
  let g ← condGetH laureate "gender" nanA noneA
  let bd ← extract_nested_valueH laureate "birth.date" nanA
  let bc ← extract_nested_valueH laureate "birth.place.city.en" nanA
  let bco ← extract_nested_valueH laureate "birth.place.country.en" nanA
  let bcn ← extract_nested_valueH laureate "birth.place.countryNow.en" nanA
  let cont ← extract_nested_valueH laureate "birth.place.continent.en" nanA
  let dd ← extract_nested_valueH laureate "death.date" nanA
  alloc (.dictO [("laureate_id", vid), ("known_name", kn), ("gender", g),
                 ("birth_date", bd), ("born_city", bc), ("born_country", bco),
                 ("born_country_now", bcn), ("continent", cont), ("death_date", dd)])

/-- The prize-branch base row construction, heap level. -/
def prizeBaseRowH (p nanA noneA : Nat) : PyM Nat := do
  let y ← condGetH p "awardYear" nanA noneA
  let cat ← extract_nested_valueH p "category.en" nanA
  let da ← condGetH p "dateAwarded" nanA noneA
  let pa ← condGetH p "prizeAmount" nanA noneA
  let pj ← condGetH p "prizeAmountAdjusted" nanA noneA
  let tm ← extract_nested_valueH p "topMotivation.en" nanA
  alloc (.dictO [("year", y), ("category", cat), ("date_awarded", da),
                 ("prize_amount", pa), ("prize_amount_adjusted", pj),
                 ("top_motivation", tm)])

/-- One embedded-laureate step of the prize branch, heap level:
`new_row = row.copy()` allocates a fresh dict, the update dict's fields are
read from the entry, and `new_row.update({...})` writes the fresh copy — the
only write in the whole pipeline, and it targets a cell that did not exist
before the call. -/
def prizeLaureateUpdateH (base l nanA noneA : Nat) : PyM Nat := do
  let bo ← readCell base
  let bfields ← (match bo with
                 | .dictO fs => pure fs
                 | _ => throw .typeError)
  let newRow ← alloc (.dictO bfields)
  let lid ← dictGetH l "id" noneA
  let mot ← extract_nested_valueH l "motivation.en" nanA
  let por ← extract_nested_valueH l "portion" nanA
  writeCell newRow (.dictO (rowUpdate bfields
    [("laureate_id", lid), ("motivation", mot), ("portion", por)]))
  pure newRow

/-- The rows one prize record contributes, heap level. -/
def prizeRowsH (p nanA noneA : Nat) : PyM (List Nat) := do
  let base ← prizeBaseRowH p nanA noneA
  let hasL ← pyContainsH p "laureates"
  if hasL then do
    let lv ← dictGetH p "laureates" noneA
    let ls ← pyIterateH lv
    mapMH (fun l => prizeLaureateUpdateH base l nanA noneA) ls
  else
    pure [base]

/-- `normalize_to_dataframe`, heap level, up to the list of row addresses the
final `pd.DataFrame(rows)` call then copies out (that call only reads). -/
def normalize_rowsH (json nanA noneA : Nat) : PyM (List Nat) := do
  let hasLaur ← pyContainsH json "laureates"
  if hasLaur then do
    let coll ← dictGetH json "laureates" noneA
    let items ← pyIterateH coll
    mapMH (fun l => laureateRowH l nanA noneA) items
  else do
    let hasPr ← pyContainsH json "nobelPrizes"
    if hasPr then do
      let coll ← dictGetH json "nobelPrizes" noneA
      let items ← pyIterateH coll
      let rowss ← mapMH (fun q => prizeRowsH q nanA noneA) items
      pure rowss.flatten
    else
      pure []

/-- `h'` preserves everything that existed in `h`: no old address is dropped
or overwritten, so every pre-existing object reads back unchanged. -/
def HeapExtends (h h' : Heap) : Prop :=
  h.nxt ≤ h'.nxt ∧ ∀ a, a < h.nxt → h'.cells.lookup a = h.cells.lookup a

/-! ### Basic lemmas on the embedding's plumbing -/

theorem bind_ok {α β : Type} {e : Except PyError α} {k : α → Except PyError β} {b : β} :
    (e >>= k) = .ok b ↔ ∃ a, e = .ok a ∧ k a = .ok b := by
  cases e <;> simp [Bind.bind, Except.bind]

theorem pure_ok {α : Type} {a b : α} :
    (pure a : Except PyError α) = .ok b ↔ a = b := by
  simp [pure, Except.pure]

theorem mapME_ok_length {α β : Type} {f : α → Except PyError β} :
    ∀ {l : List α} {ys : List β}, mapME f l = .ok ys → ys.length = l.length := by
  intro l
  induction l with
  | nil =>
    intro ys h
    simp only [mapME] at h
    cases h
    rfl
  | cons x xs ih =>
    intro ys h
    simp only [mapME, bind_ok, pure_ok] at h
    obtain ⟨y, _, ys', hys', rfl⟩ := h
    simp [ih hys']

theorem mapME_ok_get {α β : Type} {f : α → Except PyError β} :
    ∀ {l : List α} {ys : List β}, mapME f l = .ok ys →
      ∀ i (hi : i < l.length) (hy : i < ys.length),
        f (l.get ⟨i, hi⟩) = .ok (ys.get ⟨i, hy⟩) := by
  intro l
  induction l with
  | nil => intro ys h i hi hy; exact absurd hi (by simp)
  | cons x xs ih =>
    intro ys h i hi hy
    simp only [mapME, bind_ok, pure_ok] at h
    obtain ⟨y, hy0, ys', hys', rfl⟩ := h
    cases i with
    | zero => simpa using hy0
    | succ n =>
      have hn : n < xs.length := by simpa using hi
      have hn' : n < ys'.length := by simpa using hy
      simpa using ih hys' n hn hn'

theorem mapME_ok_mem {α β : Type} {f : α → Except PyError β} :
    ∀ {l : List α} {ys : List β}, mapME f l = .ok ys →
      ∀ y ∈ ys, ∃ x ∈ l, f x = .ok y := by
  intro l
  induction l with
  | nil =>
    intro ys h y hy
    simp only [mapME] at h
    cases h
    simp at hy
  | cons x xs ih =>
    intro ys h y hy
    simp only [mapME, bind_ok, pure_ok] at h
    obtain ⟨y0, hy0, ys', hys', rfl⟩ := h
    rcases List.mem_cons.mp hy with rfl | hmem
    · exact ⟨x, List.mem_cons_self x xs, hy0⟩
    · obtain ⟨x', hx', hfx'⟩ := ih hys' y hmem
      exact ⟨x', List.mem_cons_of_mem x hx', hfx'⟩

theorem mapME_total {α β : Type} {f : α → Except PyError β} :
    ∀ {l : List α}, (∀ x ∈ l, ∃ y, f x = .ok y) → ∃ ys, mapME f l = .ok ys := by
  intro l
  induction l with
  | nil => intro _; exact ⟨[], rfl⟩
  | cons x xs ih =>
    intro h
    obtain ⟨y, hy⟩ := h x (List.mem_cons_self x xs)
    obtain ⟨ys, hys⟩ := ih (fun z hz => h z (List.mem_cons_of_mem x hz))
    exact ⟨y :: ys, by simp [mapME, hy, hys, bind_ok, pure_ok]⟩

theorem lookup_isSome_iff_mem {κ β : Type} [BEq κ] [LawfulBEq κ] {r : List (κ × β)} {k : κ} :
    (r.lookup k).isSome = true ↔ k ∈ r.map Prod.fst := by
  induction r with
  | nil => simp [List.lookup]
  | cons p rest ih =>
    obtain ⟨k0, v0⟩ := p
    by_cases hk : k = k0
    · subst hk; simp [List.lookup]
    · have hb : (k == k0) = false := by simp [hk]
      simp only [List.lookup, hb]
      rw [ih]
      simp [hk]

theorem lookup_eq_none_iff_not_mem {κ β : Type} [BEq κ] [LawfulBEq κ] {r : List (κ × β)} {k : κ} :
    r.lookup k = none ↔ k ∉ r.map Prod.fst := by
  constructor
  · intro h hmem
    have hs := lookup_isSome_iff_mem.mpr hmem
    rw [h] at hs
    simp at hs
  · intro h
    cases hl : r.lookup k with
    | none => rfl
    | some v => exact absurd (lookup_isSome_iff_mem.mp (by simp [hl])) h

/-! ### The extractor's three traversal outcomes -/

/-- When the traversal stops at a false membership test, the loop returns the
default. -/
theorem extractAux_stops (dflt : JValue) :
    ∀ (keys : List String) (cur : JValue), stopsWithDefault cur keys = true →
      extractAux dflt cur keys = .ok dflt := by
  intro keys
  induction keys with
  | nil => intro cur h; simp [stopsWithDefault] at h
  | cons k rest ih =>
    intro cur h
    match cur with
    | .vNull => simp [stopsWithDefault] at h
    | .vNaN => simp [stopsWithDefault] at h
    | .vInt _ => simp [stopsWithDefault] at h
    | .vBool _ => simp [stopsWithDefault] at h
    | .vStr s =>
      simp only [stopsWithDefault, Bool.not_eq_true'] at h
      simp [extractAux, pyIn, h, Bind.bind, Except.bind]
    | .vArr xs =>
      simp only [stopsWithDefault, Bool.not_eq_true'] at h
      simp [extractAux, pyIn, h, Bind.bind, Except.bind]
    | .vObj fields =>
      cases hl : fields.lookup k with
      | some v =>
        have h' : stopsWithDefault v rest = true := by
          simpa [stopsWithDefault, hl] using h
        simp [extractAux, pyIn, pyIndex, hl, Bind.bind, Except.bind, ih _ h']
      | none =>
        simp [extractAux, pyIn, hl, Bind.bind, Except.bind]

/-- When the path fully resolves through mappings, the loop returns the
terminal value unchanged. -/
theorem extractAux_resolves (dflt : JValue) :
    ∀ (keys : List String) (cur v : JValue), pathValue cur keys = some v →
      extractAux dflt cur keys = .ok v := by
  intro keys
  induction keys with
  | nil =>
    intro cur v h
    simp only [pathValue, Option.some.injEq] at h
    subst h
    rfl
  | cons k rest ih =>
    intro cur v h
    match cur with
    | .vNull => simp [pathValue] at h
    | .vNaN => simp [pathValue] at h
    | .vInt _ => simp [pathValue] at h
    | .vBool _ => simp [pathValue] at h
    | .vStr _ => simp [pathValue] at h
    | .vArr _ => simp [pathValue] at h
    | .vObj fields =>
      cases hl : fields.lookup k with
      | some w =>
        have h' : pathValue w rest = some v := by simpa [pathValue, hl] using h
        simp [extractAux, pyIn, pyIndex, hl, Bind.bind, Except.bind, ih _ _ h']
      | none => simp [pathValue, hl] at h

/-- On a safe traversal the loop cannot raise. -/
theorem extractAux_safe (dflt : JValue) :
    ∀ (keys : List String) (cur : JValue), extractSafe cur keys = true →
      ∃ v, extractAux dflt cur keys = .ok v := by
  intro keys
  induction keys with
  | nil => intro cur _; exact ⟨cur, rfl⟩
  | cons k rest ih =>
    intro cur h
    match cur with
    | .vNull => simp [extractSafe] at h
    | .vNaN => simp [extractSafe] at h
    | .vInt _ => simp [extractSafe] at h
    | .vBool _ => simp [extractSafe] at h
    | .vStr s =>
      simp only [extractSafe, Bool.not_eq_true'] at h
      exact ⟨dflt, by simp [extractAux, pyIn, h, Bind.bind, Except.bind]⟩
    | .vArr xs =>
      simp only [extractSafe, Bool.not_eq_true'] at h
      exact ⟨dflt, by simp [extractAux, pyIn, h, Bind.bind, Except.bind]⟩
    | .vObj fields =>
      cases hl : fields.lookup k with
      | some v =>
        have h' : extractSafe v rest = true := by simpa [extractSafe, hl] using h
        obtain ⟨w, hw⟩ := ih v h'
        exact ⟨w, by simp [extractAux, pyIn, pyIndex, hl, Bind.bind, Except.bind, hw]⟩
      | none =>
        exact ⟨dflt, by simp [extractAux, pyIn, hl, Bind.bind, Except.bind]⟩

/-! ### Claim C1 (corrected) -/

/-- C1, counterexample: on the record `{"a": None}` with path `"a.b"`,
traversing into the key that maps to `None` and then requesting a further
sub-key does not return the default — `'b' in None` raises `TypeError`. -/
theorem extract_none_intermediate_raises :
    extract_nested_value (JValue.vObj [("a", JValue.vNull)]) "a.b" JValue.vNaN
      = .error .typeError := rfl

/-- C1 (amended): for every record `r`, path `p` and default `d`, if the
traversal reaches a step whose membership test is legitimately false — a
mapping lacking the next segment key, or a string/sequence not containing
it — after descending only through mappings, then `extract_nested_value`
returns `d` without raising. (The original claim also covered non-mapping
intermediates such as `None`; those raise `TypeError` instead, per the
counterexample.) -/
theorem extract_on_missing_key_returns_default (r : JValue) (p : String) (d : JValue)
    (h : stopsWithDefault r (splitDot p) = true) :
    extract_nested_value r p d = .ok d :=
  extractAux_stops d (splitDot p) r h

/-- Witness for the amended C1: a record whose nested mapping lacks the
second segment key resolves to the default. -/
theorem extract_on_missing_key_returns_default_witness :
    stopsWithDefault (JValue.vObj [("a", JValue.vObj [])]) (splitDot "a.b") = true ∧
    extract_nested_value (JValue.vObj [("a", JValue.vObj [])]) "a.b" (JValue.vInt 7)
      = .ok (JValue.vInt 7) :=
  ⟨rfl, extract_on_missing_key_returns_default _ _ _ rfl⟩

/-! ### Claim C6 (confirmed) -/

/-- C6: whenever every segment of the path resolves through mappings to a
terminal value, `extract_nested_value` returns exactly that stored value,
with no coercion or modification, for any default. -/
theorem extract_full_resolution_exact (r : JValue) (p : String) (d v : JValue)
    (h : pathValue r (splitDot p) = some v) :
    extract_nested_value r p d = .ok v :=
  extractAux_resolves d (splitDot p) r v h

/-- Witness for C6: a fully-resolvable two-segment path returns the stored
terminal string. -/
theorem extract_full_resolution_exact_witness :
    pathValue (JValue.vObj [("birth", JValue.vObj [("date", JValue.vStr "1867-11-07")])])
        (splitDot "birth.date") = some (JValue.vStr "1867-11-07") ∧
    extract_nested_value
        (JValue.vObj [("birth", JValue.vObj [("date", JValue.vStr "1867-11-07")])])
        "birth.date" JValue.vNaN = .ok (JValue.vStr "1867-11-07") :=
  ⟨rfl, extract_full_resolution_exact _ _ _ _ rfl⟩

/-! ### DataFrame-construction lemmas -/

theorem contains_iff_mem {l : List String} {k : String} : l.contains k = true ↔ k ∈ l :=
  List.elem_iff

theorem contains_append_single {acc : List String} {k x : String} (hxk : x ≠ k) :
    (acc ++ [k]).contains x = acc.contains x := by
  cases hca : acc.contains x
  · cases hck : (acc ++ [k]).contains x
    · rfl
    · rcases List.mem_append.mp (contains_iff_mem.mp hck) with h | h
      · exact absurd (contains_iff_mem.mpr h) (by rw [hca]; simp)
      · simp at h
        exact absurd h hxk
  · exact contains_iff_mem.mpr (List.mem_append.mpr (.inl (contains_iff_mem.mp hca)))

theorem rowFold_insert (r : Row) :
    ∀ acc : List String, (r.map Prod.fst).Nodup →
      r.foldl (fun acc2 p => insertCol acc2 p.1) acc
        = acc ++ (r.map Prod.fst).filter (fun k => !acc.contains k) := by
  induction r with
  | nil => intro acc _; simp
  | cons p rest ih =>
    intro acc hnd
    obtain ⟨k, v⟩ := p
    simp only [List.map_cons, List.nodup_cons] at hnd
    obtain ⟨hk, hnd'⟩ := hnd
    by_cases hc : acc.contains k
    · rw [List.foldl_cons]
      show rest.foldl _ (insertCol acc k) = _
      rw [insertCol, if_pos hc, ih acc hnd']
      have hmem : k ∈ acc := contains_iff_mem.mp hc
      simp [List.filter_cons, hmem]
    · rw [List.foldl_cons]
      show rest.foldl _ (insertCol acc k) = _
      rw [insertCol, if_neg hc, ih (acc ++ [k]) hnd']
      have hfeq : (rest.map Prod.fst).filter (fun x => !(acc ++ [k]).contains x)
          = (rest.map Prod.fst).filter (fun x => !acc.contains x) := by
        apply List.filter_congr
        intro x hx
        have hxk : x ≠ k := fun he => hk (he ▸ hx)
        rw [contains_append_single hxk]
      rw [hfeq]
      have hmem : k ∉ acc := fun hm => hc (contains_iff_mem.mpr hm)
      simp [List.filter_cons, hmem, List.append_assoc]

theorem mem_insertCol_of_mem {acc : List String} {k x : String} (h : x ∈ acc) :
    x ∈ insertCol acc k := by
  unfold insertCol
  by_cases hc : acc.contains k
  · rwa [if_pos hc]
  · rw [if_neg hc]
    exact List.mem_append.mpr (.inl h)

theorem mem_insertCol_self {acc : List String} (k : String) : k ∈ insertCol acc k := by
  unfold insertCol
  by_cases hc : acc.contains k
  · rw [if_pos hc]
    exact contains_iff_mem.mp hc
  · rw [if_neg hc]
    simp

theorem mem_rowFold_of_mem {r : Row} :
    ∀ {acc : List String} {x : String}, x ∈ acc →
      x ∈ r.foldl (fun acc2 p => insertCol acc2 p.1) acc := by
  induction r with
  | nil => intro acc x h; exact h
  | cons p rest ih => intro acc x h; exact ih (mem_insertCol_of_mem h)

theorem mem_rowFold_of_key {r : Row} :
    ∀ {acc : List String} {x : String}, x ∈ r.map Prod.fst →
      x ∈ r.foldl (fun acc2 p => insertCol acc2 p.1) acc := by
  induction r with
  | nil => intro acc x h; simp at h
  | cons p rest ih =>
    intro acc x h
    rw [List.map_cons] at h
    rw [List.foldl_cons]
    rcases List.mem_cons.mp h with rfl | hmem
    · exact mem_rowFold_of_mem (mem_insertCol_self _)
    · exact ih hmem

theorem mem_rowsFold_of_mem {k : String} :
    ∀ (rows : List Row) (acc : List String), k ∈ acc →
      k ∈ rows.foldl (fun acc0 r0 => r0.foldl (fun acc2 p => insertCol acc2 p.1) acc0) acc := by
  intro rows
  induction rows with
  | nil => intro acc h; exact h
  | cons r0 rest ih => intro acc h; exact ih _ (mem_rowFold_of_mem h)

theorem mem_dfColumns_of {rows : List Row} {r : Row} {k : String}
    (hr : r ∈ rows) (hk : k ∈ r.map Prod.fst) : k ∈ dfColumns rows := by
  unfold dfColumns
  revert hr
  generalize ([] : List String) = acc
  revert acc
  induction rows with
  | nil => intro acc h; simp at h
  | cons r0 rest ih =>
    intro acc hr
    rw [List.foldl_cons]
    rcases List.mem_cons.mp hr with rfl | hmem
    · exact mem_rowsFold_of_mem _ _ (mem_rowFold_of_key hk)
    · exact ih _ hmem

theorem toDataFrame_length (rows : List Row) : (toDataFrame rows).length = rows.length := by
  simp [toDataFrame]

theorem toDataFrame_keys {rows : List Row} {r : Row} (h : r ∈ toDataFrame rows) :
    r.map Prod.fst = dfColumns rows := by
  simp only [toDataFrame, List.mem_map] at h
  obtain ⟨r0, _, rfl⟩ := h
  have hcomp : (Prod.fst ∘ fun c => (c, (r0.lookup c).getD JValue.vNaN)) = id := rfl
  rw [List.map_map, hcomp, List.map_id]

theorem lookup_map_cols {cols : List String} {g : String → JValue} {c : String} :
    (cols.map (fun x => (x, g x))).lookup c = if c ∈ cols then some (g c) else none := by
  induction cols with
  | nil => simp [List.lookup]
  | cons c0 rest ih =>
    by_cases hc : c = c0
    · subst hc; simp [List.lookup]
    · have hb : (c == c0) = false := by simp [hc]
      simp [List.lookup, hb, ih, hc]

theorem toDataFrame_getCell {rows : List Row} {i : Nat} (hi : i < (toDataFrame rows).length)
    (hi' : i < rows.length) (c : String) :
    getCell ((toDataFrame rows).get ⟨i, hi⟩) c = getCell (rows.get ⟨i, hi'⟩) c := by
  have hrow : (toDataFrame rows).get ⟨i, hi⟩
      = (dfColumns rows).map
          (fun x => (x, ((rows.get ⟨i, hi'⟩).lookup x).getD JValue.vNaN)) := by
    simp [toDataFrame]
  rw [hrow]
  show ((List.map (fun x => (x, ((rows.get ⟨i, hi'⟩).lookup x).getD JValue.vNaN))
      (dfColumns rows)).lookup c).getD JValue.vNaN = getCell (rows.get ⟨i, hi'⟩) c
  rw [lookup_map_cols]
  by_cases hc : c ∈ dfColumns rows
  · rw [if_pos hc]
    rfl
  · rw [if_neg hc]
    have hnr : (rows.get ⟨i, hi'⟩).lookup c = none := by
      rw [lookup_eq_none_iff_not_mem]
      intro hmem
      exact hc (mem_dfColumns_of (List.get_mem rows i hi') hmem)
    show _ = ((rows.get ⟨i, hi'⟩).lookup c).getD JValue.vNaN
    rw [hnr]

/-- Every branch of the normalizer returns a rectangularized table. -/
theorem normalize_ok_shape {j : JValue} {out : List Row}
    (h : normalize_to_dataframe j = .ok out) : ∃ raw, out = toDataFrame raw := by
  simp only [normalize_to_dataframe, bind_ok, pure_ok] at h
  obtain ⟨b, hb, h⟩ := h
  cases b
  · simp only [Bool.false_eq_true, if_false, bind_ok, pure_ok] at h
    obtain ⟨b2, hb2, h⟩ := h
    cases b2
    · simp only [Bool.false_eq_true, if_false, pure_ok] at h
      exact ⟨[], h.symm⟩
    · simp only [if_true, bind_ok, pure_ok] at h
      obtain ⟨coll, _, rows, _, hout⟩ := h
      exact ⟨rows, hout.symm⟩
  · simp only [if_true, bind_ok, pure_ok] at h
    obtain ⟨coll, _, rows, _, hout⟩ := h
    exact ⟨rows, hout.symm⟩

/-! ### Claim C8 (confirmed) -/

/-- C8: a top-level mapping containing neither recognized collection key —
the empty mapping included — normalizes to the empty row collection without
an error. -/
theorem normalize_unrecognized_empty (fields : List (String × JValue))
    (h1 : fields.lookup "laureates" = none)
    (h2 : fields.lookup "nobelPrizes" = none) :
    normalize_to_dataframe (JValue.vObj fields) = .ok [] := by
  simp [normalize_to_dataframe, pyContains, h1, h2, Bind.bind, Except.bind,
        toDataFrame, pure, Except.pure]

/-- Witness for C8 at a concrete unrecognized mapping. -/
theorem normalize_unrecognized_empty_witness :
    (([("meta", JValue.vNull)] : List (String × JValue)).lookup "laureates" = none) ∧
    (([("meta", JValue.vNull)] : List (String × JValue)).lookup "nobelPrizes" = none) ∧
    normalize_to_dataframe (JValue.vObj [("meta", JValue.vNull)]) = .ok [] :=
  ⟨rfl, rfl, normalize_unrecognized_empty _ rfl rfl⟩

/-! ### Claim C10 (confirmed) -/

theorem lookup_filter_ne {β : Type} {k bad : String} (hne : k ≠ bad) :
    ∀ l : List (String × β), (l.filter (fun q => q.1 != bad)).lookup k = l.lookup k := by
  intro l
  induction l with
  | nil => rfl
  | cons p rest ih =>
    obtain ⟨k0, v0⟩ := p
    by_cases h0 : k0 = bad
    · subst h0
      have hb : (k == k0) = false := by simp [hne]
      simp [List.filter_cons, List.lookup, hb, ih]
    · have hkeep : (k0 != bad) = true := by simp [h0]
      by_cases hkk : k = k0
      · subst hkk
        simp [List.filter_cons, hkeep, List.lookup]
      · have hb : (k == k0) = false := by simp [hkk]
        simp [List.filter_cons, hkeep, List.lookup, hb, ih]

/-- C10: when a top-level mapping carries both recognized keys, the laureate
branch takes precedence — the result is the laureate pipeline on the
`laureates` value, and deleting the `nobelPrizes` entry from the input leaves
the result unchanged: the prize records are never consulted. -/
theorem laureates_key_precedence (fields : List (String × JValue))
    (h : (fields.lookup "laureates").isSome = true) :
    normalize_to_dataframe (JValue.vObj fields)
        = (do
            let rows ← laureatesRows ((fields.lookup "laureates").getD JValue.vNull)
            pure (toDataFrame rows)) ∧
    normalize_to_dataframe (JValue.vObj fields)
        = normalize_to_dataframe
            (JValue.vObj (fields.filter (fun q => q.1 != "nobelPrizes"))) := by
  constructor
  · simp [normalize_to_dataframe, pyContains, dictGet, h, Bind.bind, Except.bind]
  · have hl : (fields.filter (fun q => q.1 != "nobelPrizes")).lookup "laureates"
        = fields.lookup "laureates" :=
      lookup_filter_ne (by decide) fields
    simp [normalize_to_dataframe, pyContains, dictGet, h, hl, Bind.bind, Except.bind]

/-- Witness for C10: with both collection keys present, the prize records are
ignored — the result equals that of the input with the `nobelPrizes` entry
removed. -/
theorem laureates_key_precedence_witness :
    normalize_to_dataframe
        (JValue.vObj [("laureates", JValue.vArr [JValue.vObj []]),
                      ("nobelPrizes", JValue.vArr [JValue.vObj []])])
      = normalize_to_dataframe (JValue.vObj [("laureates", JValue.vArr [JValue.vObj []])]) :=
  (laureates_key_precedence
    [("laureates", JValue.vArr [JValue.vObj []]),
     ("nobelPrizes", JValue.vArr [JValue.vObj []])] rfl).2

/-! ### Row-shape lemmas -/

theorem laureateRow_inv {r : JValue} {row : Row} (h : laureateRow r = .ok row) :
    ∃ vid kn g bd bc bco bcn cont dd,
      dictGet r "id" = .ok vid ∧
      extract_nested_value r "knownName.en" = .ok kn ∧
      condGet r "gender" = .ok g ∧
      extract_nested_value r "birth.date" = .ok bd ∧
      extract_nested_value r "birth.place.city.en" = .ok bc ∧
      extract_nested_value r "birth.place.country.en" = .ok bco ∧
      extract_nested_value r "birth.place.countryNow.en" = .ok bcn ∧
      extract_nested_value r "birth.place.continent.en" = .ok cont ∧
      extract_nested_value r "death.date" = .ok dd ∧
      row = [("laureate_id", vid), ("known_name", kn), ("gender", g),
             ("birth_date", bd), ("born_city", bc), ("born_country", bco),
             ("born_country_now", bcn), ("continent", cont), ("death_date", dd)] := by
  simp only [laureateRow, bind_ok, pure_ok] at h
  obtain ⟨vid, h1, kn, h2, g, h3, bd, h4, bc, h5, bco, h6, bcn, h7, cont, h8,
    dd, h9, hrow⟩ := h
  exact ⟨vid, kn, g, bd, bc, bco, bcn, cont, dd, h1, h2, h3, h4, h5, h6, h7,
    h8, h9, hrow.symm⟩

theorem laureateRow_keys {r : JValue} {row : Row} (h : laureateRow r = .ok row) :
    row.map Prod.fst = laureateColumns := by
  obtain ⟨vid, kn, g, bd, bc, bco, bcn, cont, dd, -, -, -, -, -, -, -, -, -, hrow⟩ :=
    laureateRow_inv h
  subst hrow
  rfl

theorem prizeBaseRow_inv {p : JValue} {base : Row} (h : prizeBaseRow p = .ok base) :
    ∃ y cat da pa pj tm,
      condGet p "awardYear" = .ok y ∧
      extract_nested_value p "category.en" = .ok cat ∧
      condGet p "dateAwarded" = .ok da ∧
      condGet p "prizeAmount" = .ok pa ∧
      condGet p "prizeAmountAdjusted" = .ok pj ∧
      extract_nested_value p "topMotivation.en" = .ok tm ∧
      base = [("year", y), ("category", cat), ("date_awarded", da),
              ("prize_amount", pa), ("prize_amount_adjusted", pj),
              ("top_motivation", tm)] := by
  simp only [prizeBaseRow, bind_ok, pure_ok] at h
  obtain ⟨y, h1, cat, h2, da, h3, pa, h4, pj, h5, tm, h6, hrow⟩ := h
  exact ⟨y, cat, da, pa, pj, tm, h1, h2, h3, h4, h5, h6, hrow.symm⟩

theorem prizeBaseRow_keys {p : JValue} {base : Row} (h : prizeBaseRow p = .ok base) :
    base.map Prod.fst = prizeBaseColumns := by
  obtain ⟨y, cat, da, pa, pj, tm, -, -, -, -, -, -, hrow⟩ := prizeBaseRow_inv h
  subst hrow
  rfl

theorem prizeLaureateCols_inv {l : JValue} {cols : Row}
    (h : prizeLaureateCols l = .ok cols) :
    ∃ lid mot por,
      dictGet l "id" = .ok lid ∧
      extract_nested_value l "motivation.en" = .ok mot ∧
      extract_nested_value l "portion" = .ok por ∧
      cols = [("laureate_id", lid), ("motivation", mot), ("portion", por)] := by
  simp only [prizeLaureateCols, bind_ok, pure_ok] at h
  obtain ⟨lid, h1, mot, h2, por, h3, hrow⟩ := h
  exact ⟨lid, mot, por, h1, h2, h3, hrow.symm⟩

/-! ### Uniform-column lemmas -/

theorem rowsFold_absorb {L : List String} (hnd : L.Nodup) :
    ∀ rows : List Row, (∀ r ∈ rows, r.map Prod.fst = L) →
      rows.foldl (fun acc0 r0 => r0.foldl (fun acc2 p => insertCol acc2 p.1) acc0) L
        = L := by
  intro rows
  induction rows with
  | nil => intro _; rfl
  | cons r0 rest ih =>
    intro hkeys
    rw [List.foldl_cons]
    have hk0 : r0.map Prod.fst = L := hkeys r0 (List.mem_cons_self r0 rest)
    have h0 : r0.foldl (fun acc2 p => insertCol acc2 p.1) L = L := by
      rw [rowFold_insert r0 L (by rw [hk0]; exact hnd)]
      have hnil : (r0.map Prod.fst).filter (fun k => !L.contains k) = [] := by
        rw [List.filter_eq_nil_iff]
        intro k hk
        rw [hk0] at hk
        simp [hk]
      rw [hnil, List.append_nil]
    rw [h0]
    exact ih (fun r hr => hkeys r (List.mem_cons_of_mem r0 hr))

theorem dfColumns_uniform {rows : List Row} {L : List String}
    (hnd : L.Nodup) (hkeys : ∀ r ∈ rows, r.map Prod.fst = L) (hne : rows ≠ []) :
    dfColumns rows = L := by
  match rows, hne with
  | r0 :: rest, _ =>
    unfold dfColumns
    rw [List.foldl_cons]
    have hk0 : r0.map Prod.fst = L := hkeys r0 (List.mem_cons_self r0 rest)
    have h0 : r0.foldl (fun acc2 p => insertCol acc2 p.1) [] = L := by
      rw [rowFold_insert r0 [] (by rw [hk0]; exact hnd), List.nil_append, ← hk0]
      apply List.filter_eq_self.mpr
      intro a _
      rfl
    rw [h0]
    exact rowsFold_absorb hnd rest (fun r hr => hkeys r (List.mem_cons_of_mem r0 hr))

/-! ### Claim C7 (confirmed) -/

/-- C7: a laureate-collection input of K records normalizes — whenever it
returns at all — to exactly K rows, one per record in input order, each
bearing the fixed laureate column set (identifier, known name, gender, birth
date, birth city, birth country, birth country-now, continent, death
date). -/
theorem laureate_collection_rows (fields : List (String × JValue)) (ls : List JValue)
    (out : List Row)
    (hl : fields.lookup "laureates" = some (JValue.vArr ls))
    (hok : normalize_to_dataframe (JValue.vObj fields) = .ok out) :
    out.length = ls.length ∧
    (∀ row ∈ out, row.map Prod.fst = laureateColumns) ∧
    (∀ i (hi : i < ls.length) (ho : i < out.length),
      ∃ row, laureateRow (ls.get ⟨i, hi⟩) = .ok row ∧
        ∀ c, getCell (out.get ⟨i, ho⟩) c = getCell row c) := by
  have hnorm : normalize_to_dataframe (JValue.vObj fields)
      = (do
          let rows ← laureatesRows (JValue.vArr ls)
          pure (toDataFrame rows)) := by
    simp [normalize_to_dataframe, pyContains, dictGet, hl, Bind.bind, Except.bind]
  rw [hnorm] at hok
  have hlr : laureatesRows (JValue.vArr ls) = mapME laureateRow ls := by
    simp [laureatesRows, pyIterate, Bind.bind, Except.bind]
  rw [hlr] at hok
  simp only [bind_ok, pure_ok] at hok
  obtain ⟨rows, hrows, hout⟩ := hok
  subst hout
  have hkeys : ∀ r ∈ rows, r.map Prod.fst = laureateColumns := by
    intro r hr
    obtain ⟨x, -, hx⟩ := mapME_ok_mem hrows r hr
    exact laureateRow_keys hx
  refine ⟨?_, ?_, ?_⟩
  · rw [toDataFrame_length]
    exact mapME_ok_length hrows
  · intro row hrow
    have hne : rows ≠ [] := by
      intro hnil
      subst hnil
      simp [toDataFrame, dfColumns] at hrow
    rw [toDataFrame_keys hrow, dfColumns_uniform (by decide) hkeys hne]
  · intro i hi ho
    have hi' : i < rows.length := by
      rw [mapME_ok_length hrows]
      exact hi
    refine ⟨rows.get ⟨i, hi'⟩, mapME_ok_get hrows i hi hi', ?_⟩
    intro c
    exact toDataFrame_getCell ho hi' c

/-- Witness for C7: one empty laureate record yields exactly one row, with
`None` for the identifier (from `.get`) and `nan` elsewhere. -/
theorem laureate_collection_rows_witness :
    normalize_to_dataframe (JValue.vObj [("laureates", JValue.vArr [JValue.vObj []])])
      = .ok [[("laureate_id", JValue.vNull), ("known_name", JValue.vNaN),
              ("gender", JValue.vNaN), ("birth_date", JValue.vNaN),
              ("born_city", JValue.vNaN), ("born_country", JValue.vNaN),
              ("born_country_now", JValue.vNaN), ("continent", JValue.vNaN),
              ("death_date", JValue.vNaN)]] ∧
    ([[("laureate_id", JValue.vNull), ("known_name", JValue.vNaN),
       ("gender", JValue.vNaN), ("birth_date", JValue.vNaN),
       ("born_city", JValue.vNaN), ("born_country", JValue.vNaN),
       ("born_country_now", JValue.vNaN), ("continent", JValue.vNaN),
       ("death_date", JValue.vNaN)]] : List Row).length
      = ([JValue.vObj []] : List JValue).length :=
  ⟨rfl,
   (laureate_collection_rows [("laureates", JValue.vArr [JValue.vObj []])]
      [JValue.vObj []]
      [[("laureate_id", JValue.vNull), ("known_name", JValue.vNaN),
        ("gender", JValue.vNaN), ("birth_date", JValue.vNaN),
        ("born_city", JValue.vNaN), ("born_country", JValue.vNaN),
        ("born_country_now", JValue.vNaN), ("continent", JValue.vNaN),
        ("death_date", JValue.vNaN)]] rfl rfl).1⟩

/-! ### Claim C3 (confirmed) -/

theorem condGet_absent {v : JValue} {k : String} (h : pyIn v k = .ok false) :
    condGet v k = .ok JValue.vNaN := by
  simp [condGet, h, Bind.bind, Except.bind, pure, Except.pure]

/-- C3: a field missing from a source record always surfaces in the produced
row as an NA value — `nan` for every extracted path and every conditionally
read direct key, `None` for the `.get`-read laureate identifier — and NA
values are distinguishable from the legitimate falsy values `0`, `""` and
`False`; the laureate-specific columns of a laureate-less prize row read as
`nan` as well. -/
theorem missing_fields_are_sentinel :
    (∀ v, isNA v = true →
      v ≠ JValue.vInt 0 ∧ v ≠ JValue.vStr "" ∧ v ≠ JValue.vBool false) ∧
    isNA JValue.vNull = true ∧ isNA JValue.vNaN = true ∧
    (∀ r row, laureateRow r = .ok row →
      (∀ f, r = JValue.vObj f → f.lookup "id" = none →
        getCell row "laureate_id" = JValue.vNull) ∧
      (stopsWithDefault r (splitDot "knownName.en") = true →
        getCell row "known_name" = JValue.vNaN) ∧
      (pyIn r "gender" = .ok false → getCell row "gender" = JValue.vNaN) ∧
      (stopsWithDefault r (splitDot "birth.date") = true →
        getCell row "birth_date" = JValue.vNaN) ∧
      (stopsWithDefault r (splitDot "birth.place.city.en") = true →
        getCell row "born_city" = JValue.vNaN) ∧
      (stopsWithDefault r (splitDot "birth.place.country.en") = true →
        getCell row "born_country" = JValue.vNaN) ∧
      (stopsWithDefault r (splitDot "birth.place.countryNow.en") = true →
        getCell row "born_country_now" = JValue.vNaN) ∧
      (stopsWithDefault r (splitDot "birth.place.continent.en") = true →
        getCell row "continent" = JValue.vNaN) ∧
      (stopsWithDefault r (splitDot "death.date") = true →
        getCell row "death_date" = JValue.vNaN)) ∧
    (∀ p base, prizeBaseRow p = .ok base →
      (pyIn p "awardYear" = .ok false → getCell base "year" = JValue.vNaN) ∧
      (stopsWithDefault p (splitDot "category.en") = true →
        getCell base "category" = JValue.vNaN) ∧
      (pyIn p "dateAwarded" = .ok false → getCell base "date_awarded" = JValue.vNaN) ∧
      (pyIn p "prizeAmount" = .ok false → getCell base "prize_amount" = JValue.vNaN) ∧
      (pyIn p "prizeAmountAdjusted" = .ok false →
        getCell base "prize_amount_adjusted" = JValue.vNaN) ∧
      (stopsWithDefault p (splitDot "topMotivation.en") = true →
        getCell base "top_motivation" = JValue.vNaN) ∧
      (∀ c ∈ laureateSpecificColumns, getCell base c = JValue.vNaN)) ∧
    (∀ l cols, prizeLaureateCols l = .ok cols →
      (∀ f, l = JValue.vObj f → f.lookup "id" = none →
        getCell cols "laureate_id" = JValue.vNull) ∧
      (stopsWithDefault l (splitDot "motivation.en") = true →
        getCell cols "motivation" = JValue.vNaN) ∧
      (stopsWithDefault l (splitDot "portion") = true →
        getCell cols "portion" = JValue.vNaN)) := by
  refine ⟨?_, rfl, rfl, ?_, ?_, ?_⟩
  · intro v hv
    cases v <;> simp_all [isNA]
  · intro r row h
    obtain ⟨vid, kn, g, bd, bc, bco, bcn, cont, dd, h1, h2, h3, h4, h5, h6, h7, h8, h9,
      hrow⟩ := laureateRow_inv h
    subst hrow
    refine ⟨?_, ?_, ?_, ?_, ?_, ?_, ?_, ?_, ?_⟩
    · intro f hrf hid
      subst hrf
      rw [dictGet] at h1
      simp only [hid, Option.getD_none] at h1
      obtain rfl := Except.ok.inj h1
      simp [getCell, List.lookup]
    · intro hstop
      have := extractAux_stops JValue.vNaN (splitDot "knownName.en") r hstop
      rw [extract_nested_value] at h2
      rw [this] at h2
      obtain rfl := Except.ok.inj h2
      simp [getCell, List.lookup]
    · intro hg
      have := condGet_absent hg
      rw [this] at h3
      obtain rfl := Except.ok.inj h3
      simp [getCell, List.lookup]
    · intro hstop
      have := extractAux_stops JValue.vNaN (splitDot "birth.date") r hstop
      rw [extract_nested_value] at h4
      rw [this] at h4
      obtain rfl := Except.ok.inj h4
      simp [getCell, List.lookup]
    · intro hstop
      have := extractAux_stops JValue.vNaN (splitDot "birth.place.city.en") r hstop
      rw [extract_nested_value] at h5
      rw [this] at h5
      obtain rfl := Except.ok.inj h5
      simp [getCell, List.lookup]
    · intro hstop
      have := extractAux_stops JValue.vNaN (splitDot "birth.place.country.en") r hstop
      rw [extract_nested_value] at h6
      rw [this] at h6
      obtain rfl := Except.ok.inj h6
      simp [getCell, List.lookup]
    · intro hstop
      have := extractAux_stops JValue.vNaN (splitDot "birth.place.countryNow.en") r hstop
      rw [extract_nested_value] at h7
      rw [this] at h7
      obtain rfl := Except.ok.inj h7
      simp [getCell, List.lookup]
    · intro hstop
      have := extractAux_stops JValue.vNaN (splitDot "birth.place.continent.en") r hstop
      rw [extract_nested_value] at h8
      rw [this] at h8
      obtain rfl := Except.ok.inj h8
      simp [getCell, List.lookup]
    · intro hstop
      have := extractAux_stops JValue.vNaN (splitDot "death.date") r hstop
      rw [extract_nested_value] at h9
      rw [this] at h9
      obtain rfl := Except.ok.inj h9
      simp [getCell, List.lookup]
  · intro p base h
    obtain ⟨y, cat, da, pa, pj, tm, h1, h2, h3, h4, h5, h6, hrow⟩ := prizeBaseRow_inv h
    subst hrow
    refine ⟨?_, ?_, ?_, ?_, ?_, ?_, ?_⟩
    · intro hy
      rw [condGet_absent hy] at h1
      obtain rfl := Except.ok.inj h1
      simp [getCell, List.lookup]
    · intro hstop
      have := extractAux_stops JValue.vNaN (splitDot "category.en") p hstop
      rw [extract_nested_value] at h2
      rw [this] at h2
      obtain rfl := Except.ok.inj h2
      simp [getCell, List.lookup]
    · intro hd
      rw [condGet_absent hd] at h3
      obtain rfl := Except.ok.inj h3
      simp [getCell, List.lookup]
    · intro ha
      rw [condGet_absent ha] at h4
      obtain rfl := Except.ok.inj h4
      simp [getCell, List.lookup]
    · intro hj
      rw [condGet_absent hj] at h5
      obtain rfl := Except.ok.inj h5
      simp [getCell, List.lookup]
    · intro hstop
      have := extractAux_stops JValue.vNaN (splitDot "topMotivation.en") p hstop
      rw [extract_nested_value] at h6
      rw [this] at h6
      obtain rfl := Except.ok.inj h6
      simp [getCell, List.lookup]
    · intro c hc
      simp only [laureateSpecificColumns, List.mem_cons, List.not_mem_nil,
        or_false] at hc
      rcases hc with rfl | rfl | rfl <;> simp [getCell, List.lookup]
  · intro l cols h
    obtain ⟨lid, mot, por, h1, h2, h3, hrow⟩ := prizeLaureateCols_inv h
    subst hrow
    refine ⟨?_, ?_, ?_⟩
    · intro f hrf hid
      subst hrf
      rw [dictGet] at h1
      simp only [hid, Option.getD_none] at h1
      obtain rfl := Except.ok.inj h1
      simp [getCell, List.lookup]
    · intro hstop
      have := extractAux_stops JValue.vNaN (splitDot "motivation.en") l hstop
      rw [extract_nested_value] at h2
      rw [this] at h2
      obtain rfl := Except.ok.inj h2
      simp [getCell, List.lookup]
    · intro hstop
      have := extractAux_stops JValue.vNaN (splitDot "portion") l hstop
      rw [extract_nested_value] at h3
      rw [this] at h3
      obtain rfl := Except.ok.inj h3
      simp [getCell, List.lookup]

/-- Witness for C3: on the empty laureate record, the identifier cell reads
`None` and the known-name cell reads `nan`, both NA. -/
theorem missing_fields_are_sentinel_witness :
    laureateRow (JValue.vObj [])
      = .ok [("laureate_id", JValue.vNull), ("known_name", JValue.vNaN),
             ("gender", JValue.vNaN), ("birth_date", JValue.vNaN),
             ("born_city", JValue.vNaN), ("born_country", JValue.vNaN),
             ("born_country_now", JValue.vNaN), ("continent", JValue.vNaN),
             ("death_date", JValue.vNaN)] ∧
    getCell [("laureate_id", JValue.vNull), ("known_name", JValue.vNaN),
             ("gender", JValue.vNaN), ("birth_date", JValue.vNaN),
             ("born_city", JValue.vNaN), ("born_country", JValue.vNaN),
             ("born_country_now", JValue.vNaN), ("continent", JValue.vNaN),
             ("death_date", JValue.vNaN)] "laureate_id" = JValue.vNull := by
  refine ⟨rfl, ?_⟩
  exact ((missing_fields_are_sentinel.2.2.2.1 (JValue.vObj []) _ rfl).1 [] rfl rfl)

/-! ### Association-list append and update lemmas -/

theorem lookup_append_left {κ β : Type} [BEq κ] [LawfulBEq κ] {l₁ l₂ : List (κ × β)} {k : κ}
    (h : (l₁.lookup k).isSome = true) : (l₁ ++ l₂).lookup k = l₁.lookup k := by
  induction l₁ with
  | nil => simp [List.lookup] at h
  | cons p rest ih =>
    obtain ⟨k0, v0⟩ := p
    by_cases hk : k = k0
    · subst hk
      simp [List.lookup]
    · have hb : (k == k0) = false := by simp [hk]
      simp only [List.cons_append, List.lookup, hb] at h ⊢
      exact ih h

theorem lookup_append_right {κ β : Type} [BEq κ] [LawfulBEq κ] {l₁ l₂ : List (κ × β)} {k : κ}
    (h : l₁.lookup k = none) : (l₁ ++ l₂).lookup k = l₂.lookup k := by
  induction l₁ with
  | nil => simp
  | cons p rest ih =>
    obtain ⟨k0, v0⟩ := p
    by_cases hk : k = k0
    · subst hk
      simp [List.lookup] at h
    · have hb : (k == k0) = false := by simp [hk]
      simp only [List.lookup, hb] at h
      simp only [List.cons_append, List.lookup, hb]
      exact ih h

/-- Updating a dict with entirely fresh, pairwise-distinct keys appends the
entries in order. -/
theorem rowUpdate_fresh :
    ∀ (upd base : Row), (∀ k ∈ upd.map Prod.fst, k ∉ base.map Prod.fst) →
      (upd.map Prod.fst).Nodup → rowUpdate base upd = base ++ upd := by
  intro upd
  induction upd with
  | nil => intro base _ _; simp [rowUpdate]
  | cons kv rest ih =>
    intro base hdisj hnd
    obtain ⟨k, v⟩ := kv
    have hk : k ∉ base.map Prod.fst := hdisj k (by simp)
    have hlk : base.lookup k = none := lookup_eq_none_iff_not_mem.mpr hk
    rw [rowUpdate, rowSetKey, if_neg (by rw [hlk]; simp)]
    simp only [List.map_cons, List.nodup_cons] at hnd
    rw [ih (base ++ [(k, v)]) ?_ hnd.2]
    · simp
    · intro k' hk' hmem
      rw [List.map_append, List.mem_append] at hmem
      rcases hmem with hm | hm
      · exact hdisj k' (by simp [hk']) hm
      · simp only [List.map_cons, List.map_nil, List.mem_singleton] at hm
        subst hm
        exact hnd.1 hk'

/-! ### Prize-branch structure lemmas -/

theorem prizesRows_unfold {ps : List JValue} :
    prizesRows (JValue.vArr ps)
      = (do
          let rowss ← mapME prizeRows ps
          pure rowss.flatten) := by
  simp [prizesRows, pyIterate, Bind.bind, Except.bind]

theorem normalize_prize_branch {fields : List (String × JValue)} {ps : List JValue}
    (hnl : fields.lookup "laureates" = none)
    (hp : fields.lookup "nobelPrizes" = some (JValue.vArr ps)) :
    normalize_to_dataframe (JValue.vObj fields)
      = (do
          let rowss ← mapME prizeRows ps
          pure (toDataFrame rowss.flatten)) := by
  cases hM : mapME prizeRows ps with
  | ok rowss =>
    simp [normalize_to_dataframe, prizesRows, pyIterate, pyContains, dictGet,
      hnl, hp, hM, Bind.bind, Except.bind, pure, Except.pure]
  | error e =>
    simp [normalize_to_dataframe, prizesRows, pyIterate, pyContains, dictGet,
      hnl, hp, hM, Bind.bind, Except.bind, pure, Except.pure]

/-- When a prize record embeds a laureate list, `prizeRows` is the per-entry
copy-and-update loop over that list. -/
theorem prizeRows_embeds {p : JValue} {ls : List JValue} {base : Row} {rs : List Row}
    (hemb : embedsLaureates p ls) (hbase : prizeBaseRow p = .ok base)
    (h : prizeRows p = .ok rs) :
    mapME (fun l => do
      let cols ← prizeLaureateCols l
      pure (rowUpdate base cols)) ls = .ok rs := by
  obtain ⟨hc, lv, hlv, hit⟩ := hemb
  simp only [prizeRows, bind_ok, pure_ok] at h
  obtain ⟨base', hbase', h⟩ := h
  rw [hbase] at hbase'
  obtain rfl := Except.ok.inj hbase'
  obtain ⟨b, hb, h⟩ := h
  rw [hc] at hb
  obtain rfl := Except.ok.inj hb
  rw [if_pos rfl] at h
  simp only [bind_ok] at h
  obtain ⟨lv', hlv', ls', hls', h⟩ := h
  rw [hlv] at hlv'
  obtain rfl := Except.ok.inj hlv'
  rw [hit] at hls'
  obtain rfl := Except.ok.inj hls'
  exact h

/-- Without the `laureates` key, `prizeRows` yields the base row alone. -/
theorem prizeRows_no_key {p : JValue} {base : Row} {rs : List Row}
    (hc : pyContains p "laureates" = .ok false) (hbase : prizeBaseRow p = .ok base)
    (h : prizeRows p = .ok rs) : rs = [base] := by
  simp only [prizeRows, bind_ok, pure_ok] at h
  obtain ⟨base', hbase', h⟩ := h
  rw [hbase] at hbase'
  obtain rfl := Except.ok.inj hbase'
  obtain ⟨b, hb, h⟩ := h
  rw [hc] at hb
  obtain rfl := Except.ok.inj hb
  rw [if_neg (by simp)] at h
  simp only [pure_ok] at h
  exact h.symm

/-! ### Claim C2 (corrected) -/

/-- C2, counterexample: a prize record whose embedded laureate list is
present but empty has zero embedded laureates, yet the loop body never runs,
so zero rows are emitted — not the one sentinel-bearing row the claim
demands. -/
theorem prize_empty_laureate_list_zero_rows :
    normalize_to_dataframe
        (JValue.vObj [("nobelPrizes",
          JValue.vArr [JValue.vObj [("awardYear", JValue.vStr "1901"),
                                    ("laureates", JValue.vArr [])]])])
      = .ok [] := rfl

/-- C2 (amended): on a prize-collection input, the output is the per-record
row blocks in input order; a record embedding the laureate entries `ls`
contributes exactly `ls.length` rows — one per entry, in list order, each the
base row extended by that entry's identifier/motivation/portion and agreeing
with the base row on every prize-level column (so rows differ only in the
three laureate columns); a record without the `laureates` key contributes
exactly one row whose laureate-level cells read as the sentinel. (The
original claim's "zero embedded laureates yields 1 row" fails when the key is
present with an empty list: that record contributes 0 rows, per the
counterexample.) -/
theorem prize_laureate_expansion :
    (∀ (fields : List (String × JValue)) (ps : List JValue) (out : List Row),
      fields.lookup "laureates" = none →
      fields.lookup "nobelPrizes" = some (JValue.vArr ps) →
      normalize_to_dataframe (JValue.vObj fields) = .ok out →
      ∃ rowss, mapME prizeRows ps = .ok rowss ∧ rowss.length = ps.length ∧
        out = toDataFrame rowss.flatten) ∧
    (∀ p ls base rs, embedsLaureates p ls → prizeBaseRow p = .ok base →
      prizeRows p = .ok rs →
      rs.length = ls.length ∧
      ∀ i (hi : i < ls.length) (hi' : i < rs.length),
        ∃ cols, prizeLaureateCols (ls.get ⟨i, hi⟩) = .ok cols ∧
          rs.get ⟨i, hi'⟩ = base ++ cols ∧
          (∀ c ∈ prizeBaseColumns, getCell (rs.get ⟨i, hi'⟩) c = getCell base c) ∧
          (∀ c ∈ laureateSpecificColumns,
            getCell (rs.get ⟨i, hi'⟩) c = getCell cols c)) ∧
    (∀ p base rs, pyContains p "laureates" = .ok false → prizeBaseRow p = .ok base →
      prizeRows p = .ok rs →
      rs = [base] ∧ ∀ c ∈ laureateSpecificColumns, getCell base c = JValue.vNaN) := by
  have hdisj : ∀ c ∈ laureateSpecificColumns, c ∉ prizeBaseColumns := by decide
  refine ⟨?_, ?_, ?_⟩
  · intro fields ps out hnl hp hok
    rw [normalize_prize_branch hnl hp] at hok
    simp only [bind_ok, pure_ok] at hok
    obtain ⟨rowss, hM, hout⟩ := hok
    exact ⟨rowss, hM, mapME_ok_length hM, hout.symm⟩
  · intro p ls base rs hemb hbase hrows
    have hmap := prizeRows_embeds hemb hbase hrows
    have hbk : base.map Prod.fst = prizeBaseColumns := prizeBaseRow_keys hbase
    refine ⟨mapME_ok_length hmap, ?_⟩
    intro i hi hi'
    have hstep := mapME_ok_get hmap i hi hi'
    simp only [bind_ok, pure_ok] at hstep
    obtain ⟨cols, hcols, hupd⟩ := hstep
    have hck : cols.map Prod.fst = laureateSpecificColumns := by
      obtain ⟨lid, mot, por, -, -, -, hc⟩ := prizeLaureateCols_inv hcols
      subst hc
      rfl
    have happ : rowUpdate base cols = base ++ cols := by
      apply rowUpdate_fresh cols base
      · intro k hk
        rw [hck] at hk
        rw [hbk]
        exact hdisj k hk
      · rw [hck]
        decide
    rw [happ] at hupd
    refine ⟨cols, hcols, hupd.symm, ?_, ?_⟩
    · intro c hc
      rw [← hupd]
      have hsome : (base.lookup c).isSome = true :=
        lookup_isSome_iff_mem.mpr (by rw [hbk]; exact hc)
      show ((base ++ cols).lookup c).getD JValue.vNaN = (base.lookup c).getD JValue.vNaN
      rw [lookup_append_left hsome]
    · intro c hc
      rw [← hupd]
      have hnone : base.lookup c = none :=
        lookup_eq_none_iff_not_mem.mpr (by rw [hbk]; exact hdisj c hc)
      show ((base ++ cols).lookup c).getD JValue.vNaN = (cols.lookup c).getD JValue.vNaN
      rw [lookup_append_right hnone]
  · intro p base rs hc hbase hrows
    have hbk : base.map Prod.fst = prizeBaseColumns := prizeBaseRow_keys hbase
    refine ⟨prizeRows_no_key hc hbase hrows, ?_⟩
    intro c hcc
    have hnone : base.lookup c = none :=
      lookup_eq_none_iff_not_mem.mpr (by rw [hbk]; exact hdisj c hcc)
    show (base.lookup c).getD JValue.vNaN = JValue.vNaN
    rw [hnone]
    rfl

/-- Witness for the amended C2: a prize with embedded laureates `a`, `b` and
portions `1/2`, `1/2` contributes two rows, in order, sharing the base
row. -/
theorem prize_laureate_expansion_witness :
    prizeRows (JValue.vObj [("awardYear", JValue.vStr "1901"),
        ("laureates", JValue.vArr
          [JValue.vObj [("id", JValue.vStr "a"), ("portion", JValue.vStr "1/2")],
           JValue.vObj [("id", JValue.vStr "b"), ("portion", JValue.vStr "1/2")]])])
      = .ok [[("year", JValue.vStr "1901"), ("category", JValue.vNaN),
              ("date_awarded", JValue.vNaN), ("prize_amount", JValue.vNaN),
              ("prize_amount_adjusted", JValue.vNaN), ("top_motivation", JValue.vNaN),
              ("laureate_id", JValue.vStr "a"), ("motivation", JValue.vNaN),
              ("portion", JValue.vStr "1/2")],
             [("year", JValue.vStr "1901"), ("category", JValue.vNaN),
              ("date_awarded", JValue.vNaN), ("prize_amount", JValue.vNaN),
              ("prize_amount_adjusted", JValue.vNaN), ("top_motivation", JValue.vNaN),
              ("laureate_id", JValue.vStr "b"), ("motivation", JValue.vNaN),
              ("portion", JValue.vStr "1/2")]] ∧
    ([[("year", JValue.vStr "1901"), ("category", JValue.vNaN),
       ("date_awarded", JValue.vNaN), ("prize_amount", JValue.vNaN),
       ("prize_amount_adjusted", JValue.vNaN), ("top_motivation", JValue.vNaN),
       ("laureate_id", JValue.vStr "a"), ("motivation", JValue.vNaN),
       ("portion", JValue.vStr "1/2")],
      [("year", JValue.vStr "1901"), ("category", JValue.vNaN),
       ("date_awarded", JValue.vNaN), ("prize_amount", JValue.vNaN),
       ("prize_amount_adjusted", JValue.vNaN), ("top_motivation", JValue.vNaN),
       ("laureate_id", JValue.vStr "b"), ("motivation", JValue.vNaN),
       ("portion", JValue.vStr "1/2")]] : List Row).length
      = ([JValue.vObj [("id", JValue.vStr "a"), ("portion", JValue.vStr "1/2")],
          JValue.vObj [("id", JValue.vStr "b"),
            ("portion", JValue.vStr "1/2")]] : List JValue).length :=
  ⟨rfl,
   (prize_laureate_expansion.2.1
      (JValue.vObj [("awardYear", JValue.vStr "1901"),
        ("laureates", JValue.vArr
          [JValue.vObj [("id", JValue.vStr "a"), ("portion", JValue.vStr "1/2")],
           JValue.vObj [("id", JValue.vStr "b"), ("portion", JValue.vStr "1/2")]])])
      [JValue.vObj [("id", JValue.vStr "a"), ("portion", JValue.vStr "1/2")],
       JValue.vObj [("id", JValue.vStr "b"), ("portion", JValue.vStr "1/2")]]
      [("year", JValue.vStr "1901"), ("category", JValue.vNaN),
       ("date_awarded", JValue.vNaN), ("prize_amount", JValue.vNaN),
       ("prize_amount_adjusted", JValue.vNaN), ("top_motivation", JValue.vNaN)]
      [[("year", JValue.vStr "1901"), ("category", JValue.vNaN),
        ("date_awarded", JValue.vNaN), ("prize_amount", JValue.vNaN),
        ("prize_amount_adjusted", JValue.vNaN), ("top_motivation", JValue.vNaN),
        ("laureate_id", JValue.vStr "a"), ("motivation", JValue.vNaN),
        ("portion", JValue.vStr "1/2")],
       [("year", JValue.vStr "1901"), ("category", JValue.vNaN),
        ("date_awarded", JValue.vNaN), ("prize_amount", JValue.vNaN),
        ("prize_amount_adjusted", JValue.vNaN), ("top_motivation", JValue.vNaN),
        ("laureate_id", JValue.vStr "b"), ("motivation", JValue.vNaN),
        ("portion", JValue.vStr "1/2")]]
      ⟨rfl, JValue.vArr
          [JValue.vObj [("id", JValue.vStr "a"), ("portion", JValue.vStr "1/2")],
           JValue.vObj [("id", JValue.vStr "b"), ("portion", JValue.vStr "1/2")]],
        rfl, rfl⟩
      rfl rfl).1⟩

/-! ### Claim C4 (corrected) -/

theorem specific_not_in_base : ∀ c ∈ laureateSpecificColumns, c ∉ prizeBaseColumns := by
  decide

/-- C4, counterexample: a prize collection none of whose records embeds a
laureate yields rows carrying only the six base columns — `pd.DataFrame`
derives the columns from the keys actually present, so no laureate-specific
column exists and the rows do not carry the full union. -/
theorem prize_no_laureates_six_columns :
    normalize_to_dataframe
        (JValue.vObj [("nobelPrizes",
          JValue.vArr [JValue.vObj [("awardYear", JValue.vStr "1916")]])])
      = .ok [[("year", JValue.vStr "1916"), ("category", JValue.vNaN),
              ("date_awarded", JValue.vNaN), ("prize_amount", JValue.vNaN),
              ("prize_amount_adjusted", JValue.vNaN),
              ("top_motivation", JValue.vNaN)]] ∧
    "laureate_id" ∉ ([("year", JValue.vStr "1916"), ("category", JValue.vNaN),
              ("date_awarded", JValue.vNaN), ("prize_amount", JValue.vNaN),
              ("prize_amount_adjusted", JValue.vNaN),
              ("top_motivation", JValue.vNaN)] : Row).map Prod.fst :=
  ⟨rfl, by decide⟩

theorem prizeRows_base {p : JValue} {rs : List Row} (h : prizeRows p = .ok rs) :
    ∃ base, prizeBaseRow p = .ok base := by
  simp only [prizeRows, bind_ok] at h
  obtain ⟨base, hb, -⟩ := h
  exact ⟨base, hb⟩

/-- A prize record embedding at least one laureate contributes a row bearing
the full prize column set. -/
theorem prizeRows_head_keys {p l0 : JValue} {ls' : List JValue} {base : Row}
    {rs : List Row} (hemb : embedsLaureates p (l0 :: ls'))
    (hbase : prizeBaseRow p = .ok base) (hrows : prizeRows p = .ok rs) :
    ∃ row ∈ rs, row.map Prod.fst = prizeFullColumns := by
  have hmap := prizeRows_embeds hemb hbase hrows
  have hlen := mapME_ok_length hmap
  have h0 : 0 < (l0 :: ls').length := by simp
  have h0' : 0 < rs.length := by rw [hlen]; simp
  have hstep := mapME_ok_get hmap 0 h0 h0'
  simp only [bind_ok, pure_ok] at hstep
  obtain ⟨cols, hcols, hupd⟩ := hstep
  have hck : cols.map Prod.fst = laureateSpecificColumns := by
    obtain ⟨lid, mot, por, -, -, -, hc⟩ := prizeLaureateCols_inv hcols
    subst hc
    rfl
  have hbk := prizeBaseRow_keys hbase
  have happ : rowUpdate base cols = base ++ cols := by
    apply rowUpdate_fresh cols base
    · intro k hk
      rw [hck] at hk
      rw [hbk]
      exact specific_not_in_base k hk
    · rw [hck]
      decide
  rw [happ] at hupd
  refine ⟨rs.get ⟨0, h0'⟩, List.get_mem rs 0 h0', ?_⟩
  rw [← hupd, List.map_append, hbk, hck]
  rfl

/-- C4 (amended): every table the normalizer returns is rectangular — all
rows carry the identical column-key list, unconditionally; and the prize rows
carry the full union of base prize columns and laureate-specific columns
whenever at least one record embeds at least one laureate. (The original
claim asserted the full union unconditionally; on an all-organizational
collection the laureate columns do not exist at all, per the
counterexample.) -/
theorem uniform_columns :
    (∀ j out, normalize_to_dataframe j = .ok out →
      ∀ r ∈ out, ∀ r' ∈ out, r.map Prod.fst = r'.map Prod.fst) ∧
    (∀ (fields : List (String × JValue)) (ps : List JValue) (out : List Row),
      fields.lookup "laureates" = none →
      fields.lookup "nobelPrizes" = some (JValue.vArr ps) →
      normalize_to_dataframe (JValue.vObj fields) = .ok out →
      ∀ j (hj : j < ps.length) (l0 : JValue) (ls' : List JValue),
        embedsLaureates (ps.get ⟨j, hj⟩) (l0 :: ls') →
        ∀ row ∈ out, ∀ c ∈ prizeFullColumns, c ∈ row.map Prod.fst) := by
  constructor
  · intro j out hok r hr r' hr'
    obtain ⟨raw, rfl⟩ := normalize_ok_shape hok
    rw [toDataFrame_keys hr, toDataFrame_keys hr']
  · intro fields ps out hnl hp hok j hj l0 ls' hemb row hrow c hc
    rw [normalize_prize_branch hnl hp] at hok
    simp only [bind_ok, pure_ok] at hok
    obtain ⟨rowss, hM, hout⟩ := hok
    subst hout
    have hj' : j < rowss.length := by
      rw [mapME_ok_length hM]
      exact hj
    have hpj := mapME_ok_get hM j hj hj'
    obtain ⟨base, hbase⟩ := prizeRows_base hpj
    obtain ⟨row0, hrow0mem, hrow0keys⟩ := prizeRows_head_keys hemb hbase hpj
    have hmemflat : row0 ∈ rowss.flatten :=
      List.mem_flatten.mpr ⟨rowss.get ⟨j, hj'⟩, List.get_mem _ _ _, hrow0mem⟩
    rw [toDataFrame_keys hrow]
    exact mem_dfColumns_of hmemflat (by rw [hrow0keys]; exact hc)

/-- Witness for C4: on a prize input mixing a two-laureate prize and an
organizational prize, both output rows carry all nine columns. -/
theorem uniform_columns_witness :
    normalize_to_dataframe
        (JValue.vObj [("nobelPrizes", JValue.vArr
          [JValue.vObj [("awardYear", JValue.vStr "1901"),
            ("laureates", JValue.vArr
              [JValue.vObj [("id", JValue.vStr "a")]])],
           JValue.vObj [("awardYear", JValue.vStr "1916")]])])
      = .ok [[("year", JValue.vStr "1901"), ("category", JValue.vNaN),
              ("date_awarded", JValue.vNaN), ("prize_amount", JValue.vNaN),
              ("prize_amount_adjusted", JValue.vNaN), ("top_motivation", JValue.vNaN),
              ("laureate_id", JValue.vStr "a"), ("motivation", JValue.vNaN),
              ("portion", JValue.vNaN)],
             [("year", JValue.vStr "1916"), ("category", JValue.vNaN),
              ("date_awarded", JValue.vNaN), ("prize_amount", JValue.vNaN),
              ("prize_amount_adjusted", JValue.vNaN), ("top_motivation", JValue.vNaN),
              ("laureate_id", JValue.vNaN), ("motivation", JValue.vNaN),
              ("portion", JValue.vNaN)]] ∧
    (∀ c ∈ prizeFullColumns,
      c ∈ ([("year", JValue.vStr "1916"), ("category", JValue.vNaN),
            ("date_awarded", JValue.vNaN), ("prize_amount", JValue.vNaN),
            ("prize_amount_adjusted", JValue.vNaN), ("top_motivation", JValue.vNaN),
            ("laureate_id", JValue.vNaN), ("motivation", JValue.vNaN),
            ("portion", JValue.vNaN)] : Row).map Prod.fst) := by
  refine ⟨rfl, ?_⟩
  intro c hc
  exact uniform_columns.2
    [("nobelPrizes", JValue.vArr
      [JValue.vObj [("awardYear", JValue.vStr "1901"),
        ("laureates", JValue.vArr [JValue.vObj [("id", JValue.vStr "a")]])],
       JValue.vObj [("awardYear", JValue.vStr "1916")]])]
    [JValue.vObj [("awardYear", JValue.vStr "1901"),
      ("laureates", JValue.vArr [JValue.vObj [("id", JValue.vStr "a")]])],
     JValue.vObj [("awardYear", JValue.vStr "1916")]]
    [[("year", JValue.vStr "1901"), ("category", JValue.vNaN),
      ("date_awarded", JValue.vNaN), ("prize_amount", JValue.vNaN),
      ("prize_amount_adjusted", JValue.vNaN), ("top_motivation", JValue.vNaN),
      ("laureate_id", JValue.vStr "a"), ("motivation", JValue.vNaN),
      ("portion", JValue.vNaN)],
     [("year", JValue.vStr "1916"), ("category", JValue.vNaN),
      ("date_awarded", JValue.vNaN), ("prize_amount", JValue.vNaN),
      ("prize_amount_adjusted", JValue.vNaN), ("top_motivation", JValue.vNaN),
      ("laureate_id", JValue.vNaN), ("motivation", JValue.vNaN),
      ("portion", JValue.vNaN)]]
    rfl rfl rfl 0 (by decide) (JValue.vObj [("id", JValue.vStr "a")]) []
    ⟨rfl, JValue.vArr [JValue.vObj [("id", JValue.vStr "a")]], rfl, rfl⟩
    _ (by simp) c hc

/-! ### Claim C5 (corrected) -/

theorem condGet_obj_total (f : List (String × JValue)) (k : String) :
    ∃ v, condGet (JValue.vObj f) k = .ok v := by
  cases hs : (f.lookup k).isSome
  · exact ⟨JValue.vNaN,
      by simp [condGet, pyIn, hs, Bind.bind, Except.bind, pure, Except.pure]⟩
  · exact ⟨(f.lookup k).getD JValue.vNull,
      by simp [condGet, pyIn, dictGet, hs, Bind.bind, Except.bind]⟩

theorem laureateRow_total : ∀ {r : JValue}, laureateRecordWF r = true →
    ∃ row, laureateRow r = .ok row := by
  intro r h
  match r with
  | .vNull => simp [laureateRecordWF] at h
  | .vNaN => simp [laureateRecordWF] at h
  | .vStr _ => simp [laureateRecordWF] at h
  | .vInt _ => simp [laureateRecordWF] at h
  | .vBool _ => simp [laureateRecordWF] at h
  | .vArr _ => simp [laureateRecordWF] at h
  | .vObj f =>
    simp only [laureateRecordWF, Bool.and_eq_true] at h
    obtain ⟨⟨⟨⟨⟨⟨⟨-, h1⟩, h2⟩, h3⟩, h4⟩, h5⟩, h6⟩, h7⟩ := h
    obtain ⟨v1, hv1⟩ := extractAux_safe JValue.vNaN _ _ h1
    obtain ⟨v2, hv2⟩ := extractAux_safe JValue.vNaN _ _ h2
    obtain ⟨v3, hv3⟩ := extractAux_safe JValue.vNaN _ _ h3
    obtain ⟨v4, hv4⟩ := extractAux_safe JValue.vNaN _ _ h4
    obtain ⟨v5, hv5⟩ := extractAux_safe JValue.vNaN _ _ h5
    obtain ⟨v6, hv6⟩ := extractAux_safe JValue.vNaN _ _ h6
    obtain ⟨v7, hv7⟩ := extractAux_safe JValue.vNaN _ _ h7
    obtain ⟨g, hg⟩ := condGet_obj_total f "gender"
    simp only [laureateRow, bind_ok, pure_ok]
    exact ⟨_, _, rfl, _, hv1, _, hg, _, hv2, _, hv3, _, hv4, _, hv5, _, hv6, _, hv7,
      rfl⟩

theorem prizeBaseRow_total {f : List (String × JValue)}
    (h1 : extractSafe (JValue.vObj f) (splitDot "category.en") = true)
    (h2 : extractSafe (JValue.vObj f) (splitDot "topMotivation.en") = true) :
    ∃ base, prizeBaseRow (JValue.vObj f) = .ok base := by
  obtain ⟨v1, hv1⟩ := extractAux_safe JValue.vNaN _ _ h1
  obtain ⟨v2, hv2⟩ := extractAux_safe JValue.vNaN _ _ h2
  obtain ⟨y, hy⟩ := condGet_obj_total f "awardYear"
  obtain ⟨da, hda⟩ := condGet_obj_total f "dateAwarded"
  obtain ⟨pa, hpa⟩ := condGet_obj_total f "prizeAmount"
  obtain ⟨pj, hpj⟩ := condGet_obj_total f "prizeAmountAdjusted"
  simp only [prizeBaseRow, bind_ok, pure_ok]
  exact ⟨_, _, hy, _, hv1, _, hda, _, hpa, _, hpj, _, hv2, rfl⟩

theorem prizeLaureateCols_total : ∀ {l : JValue}, laureateEntryWF l = true →
    ∃ cols, prizeLaureateCols l = .ok cols := by
  intro l h
  match l with
  | .vNull => simp [laureateEntryWF] at h
  | .vNaN => simp [laureateEntryWF] at h
  | .vStr _ => simp [laureateEntryWF] at h
  | .vInt _ => simp [laureateEntryWF] at h
  | .vBool _ => simp [laureateEntryWF] at h
  | .vArr _ => simp [laureateEntryWF] at h
  | .vObj f =>
    simp only [laureateEntryWF, Bool.and_eq_true] at h
    obtain ⟨⟨-, h1⟩, h2⟩ := h
    obtain ⟨v1, hv1⟩ := extractAux_safe JValue.vNaN _ _ h1
    obtain ⟨v2, hv2⟩ := extractAux_safe JValue.vNaN _ _ h2
    simp only [prizeLaureateCols, bind_ok, pure_ok]
    exact ⟨_, _, rfl, _, hv1, _, hv2, rfl⟩

theorem prizeRows_total : ∀ {p : JValue}, prizeRecordWF p = true →
    ∃ rs, prizeRows p = .ok rs := by
  intro p h
  match p with
  | .vNull => simp [prizeRecordWF] at h
  | .vNaN => simp [prizeRecordWF] at h
  | .vStr _ => simp [prizeRecordWF] at h
  | .vInt _ => simp [prizeRecordWF] at h
  | .vBool _ => simp [prizeRecordWF] at h
  | .vArr _ => simp [prizeRecordWF] at h
  | .vObj f =>
    simp only [prizeRecordWF, Bool.and_eq_true] at h
    obtain ⟨⟨h1, h2⟩, h3⟩ := h
    obtain ⟨base, hbase⟩ := prizeBaseRow_total h1 h2
    cases hlk : f.lookup "laureates" with
    | none =>
      refine ⟨[base], ?_⟩
      simp [prizeRows, hbase, pyContains, hlk, Bind.bind, Except.bind, pure,
        Except.pure]
    | some lv =>
      rw [hlk] at h3
      match lv, h3 with
      | .vArr ls, h3 =>
        have hall : ∀ l ∈ ls, laureateEntryWF l = true := by
          intro l hl
          exact List.all_eq_true.mp h3 l hl
        have htot : ∀ l ∈ ls, ∃ y,
            (do
              let cols ← prizeLaureateCols l
              pure (rowUpdate base cols) : Except PyError Row) = .ok y := by
          intro l hl
          obtain ⟨cols, hcols⟩ := prizeLaureateCols_total (hall l hl)
          exact ⟨rowUpdate base cols, by simp [hcols, Bind.bind, Except.bind, pure,
            Except.pure]⟩
        obtain ⟨rs, hrs⟩ := mapME_total htot
        refine ⟨rs, ?_⟩
        simp only [prizeRows, bind_ok, pure_ok]
        refine ⟨base, hbase, true, by simp [pyContains, hlk], ?_⟩
        rw [if_pos rfl]
        simp only [bind_ok]
        exact ⟨JValue.vArr ls, by simp [dictGet, hlk], ls, by simp [pyIterate], hrs⟩

/-- C5, counterexample: a top-level mapping whose record nests `None` under a
traversed path makes `normalize_to_dataframe` raise `TypeError`, refuting
"never raises for malformed nested fields" for mapping inputs. -/
theorem normalize_nested_none_raises :
    normalize_to_dataframe
        (JValue.vObj [("laureates", JValue.vArr [JValue.vObj [("knownName", JValue.vNull)]])])
      = .error .typeError := rfl

/-- C5 (amended): for a top-level mapping input, normalization cannot raise
provided the recognized collection maps to a list of record mappings whose
traversed nested paths are safe: at every consulted step the current
structure is either a mapping (descending when the segment key is present,
stopping with the default when it is absent) or a string/sequence whose
membership test for the segment is false (also stopping with the default).
Outside this condition normalize can raise `TypeError` even on a mapping
input: when a traversed step reaches `None` or another non-container with
segments remaining (first counterexample, the claim's), and equally when it
reaches a string that does contain the next segment as a substring — the
successful membership test is then followed by string indexing with a string
key (second conjunct below, at `{"knownName": "xen"}` under
`knownName.en`). -/
theorem normalize_wf_no_raise :
    (∀ fields : List (String × JValue), payloadWF fields = true →
      ∃ out, normalize_to_dataframe (JValue.vObj fields) = .ok out) ∧
    normalize_to_dataframe
        (JValue.vObj [("laureates",
          JValue.vArr [JValue.vObj [("knownName", JValue.vStr "xen")]])])
      = .error .typeError := by
  refine ⟨?_, rfl⟩
  intro fields h
  unfold payloadWF at h
  cases hl : fields.lookup "laureates" with
  | some lv =>
    rw [hl] at h
    match lv, h with
    | .vArr ls, h =>
      have hall : ∀ r ∈ ls, laureateRecordWF r = true := by
        intro r hr
        exact List.all_eq_true.mp h r hr
      have htot : ∀ r ∈ ls, ∃ row, laureateRow r = .ok row :=
        fun r hr => laureateRow_total (hall r hr)
      obtain ⟨rows, hrows⟩ := mapME_total htot
      refine ⟨toDataFrame rows, ?_⟩
      have hnorm : normalize_to_dataframe (JValue.vObj fields)
          = (do
              let rows ← laureatesRows (JValue.vArr ls)
              pure (toDataFrame rows)) := by
        simp [normalize_to_dataframe, pyContains, dictGet, hl, Bind.bind, Except.bind]
      rw [hnorm]
      have hlr : laureatesRows (JValue.vArr ls) = mapME laureateRow ls := by
        simp [laureatesRows, pyIterate, Bind.bind, Except.bind]
      rw [hlr]
      simp [hrows, Bind.bind, Except.bind, pure, Except.pure]
  | none =>
    rw [hl] at h
    cases hp : fields.lookup "nobelPrizes" with
    | none =>
      refine ⟨[], ?_⟩
      simp [normalize_to_dataframe, pyContains, hl, hp, Bind.bind, Except.bind,
        toDataFrame, dfColumns, pure, Except.pure]
    | some pv =>
      rw [hp] at h
      match pv, h with
      | .vArr ps, h =>
        have hall : ∀ p ∈ ps, prizeRecordWF p = true := by
          intro p hpp
          exact List.all_eq_true.mp h p hpp
        have htot : ∀ p ∈ ps, ∃ rs, prizeRows p = .ok rs :=
          fun p hpp => prizeRows_total (hall p hpp)
        obtain ⟨rowss, hrowss⟩ := mapME_total htot
        refine ⟨toDataFrame rowss.flatten, ?_⟩
        rw [normalize_prize_branch hl hp]
        simp [hrowss, Bind.bind, Except.bind, pure, Except.pure]

/-- Witness for the amended C5: a well-formed one-record laureate payload
normalizes without raising. -/
theorem normalize_wf_no_raise_witness :
    payloadWF [("laureates", JValue.vArr [JValue.vObj [("id", JValue.vStr "1")]])] = true ∧
    ∃ out, normalize_to_dataframe
        (JValue.vObj [("laureates", JValue.vArr [JValue.vObj [("id", JValue.vStr "1")]])])
      = .ok out :=
  ⟨rfl, normalize_wf_no_raise.1 _ rfl⟩

/-! ### Claim C9: the memory-level frame property -/

/-- A heap computation that neither writes nor allocates: it returns the very
heap it was given. -/
def ReadsOnly {α : Type} (m : PyM α) : Prop :=
  ∀ h a h', m h = .ok (a, h') → h' = h

theorem stateT_bind_ok {α β : Type} {m : PyM α} {k : α → PyM β} {h h' : Heap}
    {b : β} :
    (m >>= k) h = .ok (b, h') ↔ ∃ a h1, m h = .ok (a, h1) ∧ k a h1 = .ok (b, h') := by
  cases hm : m h with
  | error e => simp [Bind.bind, StateT.bind, hm, Except.bind]
  | ok p =>
    obtain ⟨a, h1⟩ := p
    simp only [Bind.bind, StateT.bind, hm, Except.bind, Except.ok.injEq,
      Prod.mk.injEq]
    constructor
    · intro hke
      exact ⟨a, h1, ⟨rfl, rfl⟩, hke⟩
    · rintro ⟨a', h1', ⟨rfl, rfl⟩, hk⟩
      exact hk

theorem pure_ok_state {α : Type} {a b : α} {h h' : Heap} :
    (pure a : PyM α) h = .ok (b, h') ↔ a = b ∧ h' = h := by
  constructor
  · intro hm
    have : (a, h) = (b, h') := Except.ok.inj hm
    exact ⟨congrArg Prod.fst this, (congrArg Prod.snd this).symm⟩
  · rintro ⟨rfl, rfl⟩
    rfl

theorem readsOnly_pure {α : Type} (a : α) : ReadsOnly (pure a : PyM α) := by
  intro h b h' hm
  exact (pure_ok_state.mp hm).2

theorem readsOnly_throw {α : Type} (e : PyError) : ReadsOnly (throw e : PyM α) := by
  intro h a h' hm
  exact Except.noConfusion hm

theorem readsOnly_bind {α β : Type} {m : PyM α} {k : α → PyM β}
    (hm : ReadsOnly m) (hk : ∀ a, ReadsOnly (k a)) : ReadsOnly (m >>= k) := by
  intro h b h' he
  rw [stateT_bind_ok] at he
  obtain ⟨a, h1, h1e, h2e⟩ := he
  rw [hk a h1 b h' h2e]
  exact hm h a h1 h1e

theorem readsOnly_ite {α : Type} {c : Prop} [Decidable c] {m1 m2 : PyM α}
    (h1 : ReadsOnly m1) (h2 : ReadsOnly m2) : ReadsOnly (if c then m1 else m2) := by
  by_cases hc : c
  · rwa [if_pos hc]
  · rwa [if_neg hc]

theorem readCell_ro (a : Nat) : ReadsOnly (readCell a) := by
  intro h o h' hm
  unfold readCell at hm
  cases hl : h.cells.lookup a with
  | some o0 =>
    rw [hl] at hm
    cases hm
    rfl
  | none =>
    rw [hl] at hm
    cases hm

theorem elemsContainH_ro (key : String) :
    ∀ es : List Nat, ReadsOnly (elemsContainH key es) := by
  intro es
  induction es with
  | nil => exact readsOnly_pure false
  | cons e es ih =>
    simp only [elemsContainH]
    apply readsOnly_bind (readCell_ro e)
    intro o
    cases o with
    | prim v =>
      cases v with
      | vStr t => exact readsOnly_ite (readsOnly_pure true) ih
      | vNull => exact ih
      | vNaN => exact ih
      | vInt n => exact ih
      | vBool b => exact ih
      | vObj fs => exact ih
      | vArr xs => exact ih
    | dictO fs => exact ih
    | listO xs => exact ih

theorem pyInH_ro (a : Nat) (key : String) : ReadsOnly (pyInH a key) := by
  simp only [pyInH]
  apply readsOnly_bind (readCell_ro a)
  intro o
  cases o with
  | prim v =>
    cases v with
    | vStr s => exact readsOnly_pure _
    | vNull => exact readsOnly_throw _
    | vNaN => exact readsOnly_throw _
    | vInt n => exact readsOnly_throw _
    | vBool b => exact readsOnly_throw _
    | vObj fs => exact readsOnly_throw _
    | vArr xs => exact readsOnly_throw _
  | dictO fs => exact readsOnly_pure _
  | listO xs => exact elemsContainH_ro key xs

theorem pyIndexH_ro (a : Nat) (key : String) : ReadsOnly (pyIndexH a key) := by
  simp only [pyIndexH]
  apply readsOnly_bind (readCell_ro a)
  intro o
  cases o with
  | prim v => exact readsOnly_throw _
  | dictO fs =>
    show ReadsOnly (match fs.lookup key with
      | some v => pure v
      | none => throw PyError.keyError)
    cases fs.lookup key with
    | some v => exact readsOnly_pure _
    | none => exact readsOnly_throw _
  | listO xs => exact readsOnly_throw _

theorem dictGetH_ro (a : Nat) (key : String) (noneA : Nat) :
    ReadsOnly (dictGetH a key noneA) := by
  simp only [dictGetH]
  apply readsOnly_bind (readCell_ro a)
  intro o
  cases o with
  | prim v => exact readsOnly_throw _
  | dictO fs => exact readsOnly_pure _
  | listO xs => exact readsOnly_throw _

theorem pyContainsH_ro (a : Nat) (key : String) : ReadsOnly (pyContainsH a key) := by
  simp only [pyContainsH]
  apply readsOnly_bind (readCell_ro a)
  intro o
  cases o with
  | prim v =>
    cases v with
    | vStr s => exact readsOnly_pure _
    | vNull => exact readsOnly_throw _
    | vNaN => exact readsOnly_throw _
    | vInt n => exact readsOnly_throw _
    | vBool b => exact readsOnly_throw _
    | vObj fs => exact readsOnly_throw _
    | vArr xs => exact readsOnly_throw _
  | dictO fs => exact readsOnly_pure _
  | listO xs => exact elemsContainH_ro key xs

theorem condGetH_ro (a : Nat) (key : String) (nanA noneA : Nat) :
    ReadsOnly (condGetH a key nanA noneA) := by
  simp only [condGetH]
  apply readsOnly_bind (pyInH_ro a key)
  intro hk
  exact readsOnly_ite (dictGetH_ro a key noneA) (readsOnly_pure nanA)

theorem extractAuxH_ro (dflt : Nat) :
    ∀ (keys : List String) (cur : Nat), ReadsOnly (extractAuxH dflt cur keys) := by
  intro keys
  induction keys with
  | nil => intro cur; exact readsOnly_pure cur
  | cons k rest ih =>
    intro cur
    simp only [extractAuxH]
    apply readsOnly_bind (pyInH_ro cur k)
    intro hit
    exact readsOnly_ite (readsOnly_bind (pyIndexH_ro cur k) fun nxt => ih nxt)
      (readsOnly_pure dflt)

theorem extract_nested_valueH_ro (data : Nat) (path : String) (dflt : Nat) :
    ReadsOnly (extract_nested_valueH data path dflt) :=
  extractAuxH_ro dflt (splitDot path) data

theorem heapExtends_refl (h : Heap) : HeapExtends h h :=
  ⟨Nat.le_refl _, fun _ _ => rfl⟩

theorem heapExtends_trans {h1 h2 h3 : Heap}
    (a : HeapExtends h1 h2) (b : HeapExtends h2 h3) : HeapExtends h1 h3 :=
  ⟨Nat.le_trans a.1 b.1,
   fun x hx => (b.2 x (Nat.lt_of_lt_of_le hx a.1)).trans (a.2 x hx)⟩

/-- A heap computation that only reads and allocates fresh cells, or writes
cells that did not exist on entry: the heap it returns extends the heap it
was given, so every pre-existing object is preserved. -/
def Extending {α : Type} (m : PyM α) : Prop :=
  ∀ h a h', m h = .ok (a, h') → HeapExtends h h'

theorem extending_of_readsOnly {α : Type} {m : PyM α} (hm : ReadsOnly m) :
    Extending m := by
  intro h a h' he
  rw [hm h a h' he]
  exact heapExtends_refl h

theorem extending_pure {α : Type} (a : α) : Extending (pure a : PyM α) :=
  extending_of_readsOnly (readsOnly_pure a)

theorem extending_throw {α : Type} (e : PyError) : Extending (throw e : PyM α) :=
  extending_of_readsOnly (readsOnly_throw e)

theorem extending_bind {α β : Type} {m : PyM α} {k : α → PyM β}
    (hm : Extending m) (hk : ∀ a, Extending (k a)) : Extending (m >>= k) := by
  intro h b h'' he
  rw [stateT_bind_ok] at he
  obtain ⟨a, h1, h1e, h2e⟩ := he
  exact heapExtends_trans (hm h a h1 h1e) (hk a h1 b h'' h2e)

theorem extending_ite {α : Type} {c : Prop} [Decidable c] {m1 m2 : PyM α}
    (h1 : Extending m1) (h2 : Extending m2) : Extending (if c then m1 else m2) := by
  by_cases hc : c
  · rwa [if_pos hc]
  · rwa [if_neg hc]

theorem lookup_append_single_ne {l : List (Nat × PyObj)} {n b : Nat} {o : PyObj}
    (hne : b ≠ n) : (l ++ [(n, o)]).lookup b = l.lookup b := by
  cases hlb : l.lookup b with
  | some v =>
    rw [lookup_append_left (by rw [hlb]; rfl)]
    exact hlb
  | none =>
    rw [lookup_append_right hlb]
    have hb : (b == n) = false := by simp [hne]
    simp [List.lookup, hb]

theorem lookup_write_ne {l : List (Nat × PyObj)} {a b : Nat} {o : PyObj}
    (hne : b ≠ a) :
    (l.map (fun p => if p.1 == a then (a, o) else p)).lookup b = l.lookup b := by
  induction l with
  | nil => rfl
  | cons p rest ih =>
    obtain ⟨k0, v0⟩ := p
    by_cases hk : k0 = a
    · subst hk
      rw [List.map_cons, if_pos (by simp : (((k0, v0).1 == k0) = true))]
      have hb : (b == k0) = false := by simp [hne]
      simp only [List.lookup, hb]
      exact ih
    · rw [List.map_cons, if_neg (by simp [hk] : ¬ (((k0, v0).1 == a) = true))]
      by_cases hbk : b = k0
      · subst hbk
        have hb : (b == b) = true := by simp
        simp only [List.lookup, hb]
      · have hb : (b == k0) = false := by simp [hbk]
        simp only [List.lookup, hb]
        exact ih

theorem alloc_extending (o : PyObj) : Extending (alloc o) := by
  intro h a h' he
  have he' : Except.ok (h.nxt,
      (⟨h.cells ++ [(h.nxt, o)], h.nxt + 1⟩ : Heap)) = Except.ok (a, h') := he
  cases he'
  refine ⟨Nat.le_succ _, ?_⟩
  intro b hb
  exact lookup_append_single_ne (Nat.ne_of_lt hb)

theorem alloc_ok_inv {o : PyObj} {h : Heap} {a : Nat} {h' : Heap}
    (he : alloc o h = .ok (a, h')) :
    a = h.nxt ∧ h' = ⟨h.cells ++ [(h.nxt, o)], h.nxt + 1⟩ := by
  have hinj : (h.nxt, (⟨h.cells ++ [(h.nxt, o)], h.nxt + 1⟩ : Heap)) = (a, h') :=
    Except.ok.inj he
  exact ⟨(congrArg Prod.fst hinj).symm, (congrArg Prod.snd hinj).symm⟩

theorem writeCell_ok_inv {n : Nat} {o : PyObj} {h : Heap} {u : Unit} {h' : Heap}
    (he : writeCell n o h = .ok (u, h')) :
    h' = ⟨h.cells.map (fun p => if p.1 == n then (n, o) else p), h.nxt⟩ := by
  have hinj : ((),
      (⟨h.cells.map (fun p => if p.1 == n then (n, o) else p), h.nxt⟩ : Heap))
      = (u, h') := Except.ok.inj he
  exact (congrArg Prod.snd hinj).symm

/-- The copy-and-update step: its only write targets the dict it freshly
allocated, so every cell that existed on entry is preserved. -/
theorem prizeLaureateUpdateH_extending (base l nanA noneA : Nat) :
    Extending (prizeLaureateUpdateH base l nanA noneA) := by
  intro h a h' he
  simp only [prizeLaureateUpdateH, stateT_bind_ok] at he
  obtain ⟨bo, h1, hread, bfields, h2, hmatch, newRow, h3, halloc, lid, h4, hget,
    mot, h5, hext1, por, h6, hext2, u, h7, hwrite, hpure⟩ := he
  have e1 : h1 = h := readCell_ro base h bo h1 hread
  have e2 : h2 = h1 := by
    cases bo with
    | dictO fs => exact (pure_ok_state.mp hmatch).2
    | prim v => exact Except.noConfusion hmatch
    | listO xs => exact Except.noConfusion hmatch
  obtain ⟨hnr, e3⟩ := alloc_ok_inv halloc
  have e4 : h4 = h3 := dictGetH_ro l "id" noneA h3 lid h4 hget
  have e5 : h5 = h4 := extract_nested_valueH_ro l "motivation.en" nanA h4 mot h5 hext1
  have e6 : h6 = h5 := extract_nested_valueH_ro l "portion" nanA h5 por h6 hext2
  have e7 := writeCell_ok_inv hwrite
  have e8 : h' = h7 := (pure_ok_state.mp hpure).2
  rw [e8, e7, e6, e5, e4, e3, hnr, e2, e1]
  refine ⟨Nat.le_succ _, ?_⟩
  intro b hb
  show ((h.cells ++ [(h.nxt, PyObj.dictO bfields)]).map
      (fun p => if p.1 == h.nxt then
        (h.nxt, PyObj.dictO (rowUpdate bfields
          [("laureate_id", lid), ("motivation", mot), ("portion", por)]))
      else p)).lookup b = h.cells.lookup b
  rw [lookup_write_ne (Nat.ne_of_lt hb), lookup_append_single_ne (Nat.ne_of_lt hb)]

theorem mapMH_extending {α β : Type} {f : α → PyM β} (hf : ∀ x, Extending (f x)) :
    ∀ l : List α, Extending (mapMH f l) := by
  intro l
  induction l with
  | nil => exact extending_pure []
  | cons x xs ih =>
    simp only [mapMH]
    exact extending_bind (hf x) fun y => extending_bind ih fun ys => extending_pure _

theorem pyIterateH_extending (a : Nat) : Extending (pyIterateH a) := by
  simp only [pyIterateH]
  apply extending_bind (extending_of_readsOnly (readCell_ro a))
  intro o
  cases o with
  | prim v =>
    cases v with
    | vStr s => exact mapMH_extending (fun c => alloc_extending _) s.toList
    | vNull => exact extending_throw _
    | vNaN => exact extending_throw _
    | vInt n => exact extending_throw _
    | vBool b => exact extending_throw _
    | vObj fs => exact extending_throw _
    | vArr xs => exact extending_throw _
  | dictO fs => exact mapMH_extending (fun q => alloc_extending _) fs
  | listO xs => exact extending_pure _

theorem laureateRowH_extending (lr nanA noneA : Nat) :
    Extending (laureateRowH lr nanA noneA) := by
  simp only [laureateRowH]
  refine extending_bind (extending_of_readsOnly (dictGetH_ro _ _ _)) fun vid => ?_
  refine extending_bind (extending_of_readsOnly (extract_nested_valueH_ro _ _ _))
    fun kn => ?_
  refine extending_bind (extending_of_readsOnly (condGetH_ro _ _ _ _)) fun g => ?_
  refine extending_bind (extending_of_readsOnly (extract_nested_valueH_ro _ _ _))
    fun bd => ?_
  refine extending_bind (extending_of_readsOnly (extract_nested_valueH_ro _ _ _))
    fun bc => ?_
  refine extending_bind (extending_of_readsOnly (extract_nested_valueH_ro _ _ _))
    fun bco => ?_
  refine extending_bind (extending_of_readsOnly (extract_nested_valueH_ro _ _ _))
    fun bcn => ?_
  refine extending_bind (extending_of_readsOnly (extract_nested_valueH_ro _ _ _))
    fun cont => ?_
  refine extending_bind (extending_of_readsOnly (extract_nested_valueH_ro _ _ _))
    fun dd => ?_
  exact alloc_extending _

theorem prizeBaseRowH_extending (p nanA noneA : Nat) :
    Extending (prizeBaseRowH p nanA noneA) := by
  simp only [prizeBaseRowH]
  refine extending_bind (extending_of_readsOnly (condGetH_ro _ _ _ _)) fun y => ?_
  refine extending_bind (extending_of_readsOnly (extract_nested_valueH_ro _ _ _))
    fun cat => ?_
  refine extending_bind (extending_of_readsOnly (condGetH_ro _ _ _ _)) fun da => ?_
  refine extending_bind (extending_of_readsOnly (condGetH_ro _ _ _ _)) fun pa => ?_
  refine extending_bind (extending_of_readsOnly (condGetH_ro _ _ _ _)) fun pj => ?_
  refine extending_bind (extending_of_readsOnly (extract_nested_valueH_ro _ _ _))
    fun tm => ?_
  exact alloc_extending _

theorem prizeRowsH_extending (p nanA noneA : Nat) :
    Extending (prizeRowsH p nanA noneA) := by
  simp only [prizeRowsH]
  refine extending_bind (prizeBaseRowH_extending _ _ _) fun base => ?_
  refine extending_bind (extending_of_readsOnly (pyContainsH_ro _ _)) fun hasL => ?_
  apply extending_ite
  · refine extending_bind (extending_of_readsOnly (dictGetH_ro _ _ _)) fun lv => ?_
    refine extending_bind (pyIterateH_extending _) fun ls => ?_
    exact mapMH_extending (fun x => prizeLaureateUpdateH_extending base x nanA noneA) ls
  · exact extending_pure _

theorem normalize_rowsH_extending (json nanA noneA : Nat) :
    Extending (normalize_rowsH json nanA noneA) := by
  simp only [normalize_rowsH]
  refine extending_bind (extending_of_readsOnly (pyContainsH_ro _ _)) fun hasLaur => ?_
  apply extending_ite
  · refine extending_bind (extending_of_readsOnly (dictGetH_ro _ _ _)) fun coll => ?_
    refine extending_bind (pyIterateH_extending _) fun items => ?_
    exact mapMH_extending (fun x => laureateRowH_extending x nanA noneA) items
  · refine extending_bind (extending_of_readsOnly (pyContainsH_ro _ _)) fun hasPr => ?_
    apply extending_ite
    · refine extending_bind (extending_of_readsOnly (dictGetH_ro _ _ _)) fun coll => ?_
      refine extending_bind (pyIterateH_extending _) fun items => ?_
      refine extending_bind
        (mapMH_extending (fun x => prizeRowsH_extending x nanA noneA) items)
        fun rowss => ?_
      exact extending_pure _
    · exact extending_pure _

/-- C9: at the memory level, `extract_nested_value` returns the heap exactly
as it received it — it is a pure, side-effect-free function of its inputs —
and `normalize_to_dataframe`'s row construction only extends the heap: every
object that existed before the call, the input records included, reads back
unchanged afterwards. -/
theorem core_never_mutates_input :
    (∀ (h : Heap) (data : Nat) (path : String) (dflt r : Nat) (h' : Heap),
      extract_nested_valueH data path dflt h = .ok (r, h') → h' = h) ∧
    (∀ (h : Heap) (json nanA noneA : Nat) (addrs : List Nat) (h' : Heap),
      normalize_rowsH json nanA noneA h = .ok (addrs, h') → HeapExtends h h') :=
  ⟨fun h data path dflt r h' he => extract_nested_valueH_ro data path dflt h r h' he,
   fun h json nanA noneA addrs h' he =>
     normalize_rowsH_extending json nanA noneA h addrs h' he⟩

/-- A four-cell heap: a payload dict at 0, its (empty) laureate list at 1,
and the `np.nan` and `None` singletons at 2 and 3. -/
def witnessHeap : Heap :=
  ⟨[(0, PyObj.dictO [("laureates", 1)]), (1, PyObj.listO []),
    (2, PyObj.prim JValue.vNaN), (3, PyObj.prim JValue.vNull)], 4⟩

/-- Witness for C9: on the concrete heap, the extractor returns the very same
heap, and the row construction leaves it extended (here: unchanged). -/
theorem core_never_mutates_input_witness :
    extract_nested_valueH 0 "laureates" 2 witnessHeap = .ok (1, witnessHeap) ∧
    witnessHeap = witnessHeap ∧
    normalize_rowsH 0 2 3 witnessHeap = .ok ([], witnessHeap) ∧
    HeapExtends witnessHeap witnessHeap :=
  ⟨rfl,
   core_never_mutates_input.1 witnessHeap 0 "laureates" 2 1 witnessHeap rfl,
   rfl,
   core_never_mutates_input.2 witnessHeap 0 2 3 [] witnessHeap rfl⟩

end NobelNorm
